import Mathlib

/-!
Shallow embedding of the core of `options_ladder_fast.pyx` (trainingApp):
the arbitrage-constrained ladder generator, the constraint-propagation
solvability engine, the hint repairer, the standalone ladder validator and
the answer checker.

Modelling conventions:
* Python floats are modelled as `ℚ`; `round(x * 100) / 100` and the
  two-argument `round(x, 2)` are modelled by `round2` below, built on
  `pyround`, which implements Python's round-half-to-even.
* The process-wide random source (`rand()` / `random.random()`) is an
  external entropy source: each random draw is an explicit input
  (a field of `AttemptDraws`, or a `Nat → Bool` coin stream).
* The transcendental core of `black_scholes_call`
  (`S*Φ(d1) - K*exp(-r*T)*Φ(d2)`, with `Φ` the Abramowitz–Stegun normal CDF
  approximation) is not expressible as an executable rational function; it is
  supplied as an oracle argument `core : BSCore`.  The intrinsic-value clamp
  and the cent rounding that the source applies to it are kept in the model.
* Python `dict`s are modelled as insertion-ordered association lists:
  assignment updates in place if the key exists, else appends (`dinsert`);
  `d.get(k)` is `dfind`, returning `none` when the key is absent.
-/

attribute [local semireducible] Rat.add Rat.sub Rat.mul Rat.inv Rat.ofScientific

set_option maxRecDepth 8000

/-- Python's `round` on a real argument: round half to even. -/
def pyround (x : ℚ) : ℤ :=
  if x - (⌊x⌋ : ℚ) < 1/2 then ⌊x⌋
  else if 1/2 < x - (⌊x⌋ : ℚ) then ⌊x⌋ + 1
  else if ⌊x⌋ % 2 = 0 then ⌊x⌋ else ⌊x⌋ + 1

/-- `round(x * 100) / 100.0`, i.e. Python's `round(x, 2)`: round to cents. -/
def round2 (x : ℚ) : ℚ := (pyround (x * 100) : ℚ) / 100

/-- `round(x * 10000) / 10000.0`: round to 4 decimal places. -/
def round4 (x : ℚ) : ℚ := (pyround (x * 10000) : ℚ) / 10000

/-- Lookup in an insertion-ordered association list (Python `dict.get`). -/
def dfind {α β : Type} [DecidableEq α] : List (α × β) → α → Option β
  | [], _ => none
  | (k, v) :: rest, key => if k = key then some v else dfind rest key

/-- Key membership in an association list (Python `key in dict`). -/
def dmem {α β : Type} [DecidableEq α] (d : List (α × β)) (key : α) : Bool :=
  (dfind d key).isSome

/-- Python `dict` assignment `d[key] = v`: update the existing entry in place,
else append a new entry at the end (dicts are insertion-ordered). -/
def dinsert {α β : Type} [DecidableEq α] : List (α × β) → α → β → List (α × β)
  | [], key, v => [(key, v)]
  | (k, w) :: rest, key, v =>
    if k = key then (k, v) :: rest else (k, w) :: dinsert rest key v

/-- One row of the options ladder: the source represents it as the Python list
`[call_price, strike, put_price]`. -/
structure LadderRow where
  call_price : ℚ
  strike : ℚ
  put_price : ℚ
deriving DecidableEq, Repr

/-- The side of an option quote; Python uses the strings `'call'` / `'put'`. -/
inductive Side
  | call
  | put
deriving DecidableEq, Repr

/-- The puzzle payload built by the exercise builders (`exercise_data` in the
source): explicit prices keyed by `(strike, side)`, spreads keyed by
`(strike1, strike2, side)`, values `None` when hidden, plus the strikes list. -/
structure ExerciseData where
  explicit_prices : List ((ℚ × Side) × Option ℚ)
  spreads : List ((ℚ × ℚ × Side) × Option ℚ)
  strikes : List ℚ
deriving DecidableEq, Repr

/-- `exercise_data['explicit_prices'][key]`.  The source raises `KeyError` on
an absent key; the model returns `none`, which agrees with the source on every
puzzle built by the exercise builders (they initialize every key). -/
def epget (e : ExerciseData) (k : ℚ × Side) : Option ℚ :=
  (dfind e.explicit_prices k).join

/-- `exercise_data['spreads'].get(key)`: `none` both for an absent key and for
a stored `None`, exactly as in the source. -/
def sget (e : ExerciseData) (k : ℚ × ℚ × Side) : Option ℚ :=
  (dfind e.spreads k).join

/-- The oracle for the transcendental Black–Scholes core
`S*norm_cdf(d1) - K*exp(-r*T)*norm_cdf(d2)` as a function of
`(S, K, r, T, sigma)`; see the module docstring. -/
def BSCore : Type := ℚ → ℚ → ℚ → ℚ → ℚ → ℚ

/-- `black_scholes_call`: the transcendental core followed by the source's
clamp `fmax(call_price, fmax(S - K, 0.0))` to intrinsic value. -/
def black_scholes_call (core : BSCore) (S K r T sigma : ℚ) : ℚ :=
  max (core S K r T sigma) (max (S - K) 0)

/-- The random draws one attempt of `generate_options_ladder_fast` consumes:
`stock_price` from `uniform_random(5,100)`, the `choice_2` coin for the strike
spacing, the Black–Scholes parameter draws, the raw `r_c` draw before cent
rounding, and the per-row volatility-smile adjustment draws. -/
structure AttemptDraws where
  stock_price : ℚ
  spacing_coin : Bool
  r : ℚ
  T : ℚ
  base_sigma : ℚ
  r_c_raw : ℚ
  vol_adj : Nat → ℚ

/-- Strike spacing by stock-price bracket; `spacing_coin = true` means the
`choice_2` draw picked its first argument. -/
def pick_spacing (S : ℚ) (coin : Bool) : ℤ :=
  if S < 10 then (if coin then 1 else 2)
  else if S < 25 then 5
  else if S < 50 then 5
  else (if coin then 5 else 10)

/-- Insert into an ascending-sorted list, modelling `np.sort`'s order. -/
def insert_sorted (x : ℚ) : List ℚ → List ℚ
  | [] => [x]
  | y :: ys => if x ≤ y then x :: y :: ys else y :: insert_sorted x ys

/-- Ascending sort (insertion sort), modelling `np.sort`. -/
def sort_asc (l : List ℚ) : List ℚ := l.foldr insert_sorted []

/-- The strikes array of one attempt: `num_strikes` strikes centered on
`round(stock_price/spacing)*spacing` with index offset `i - num_strikes//2`,
floored at `spacing`, then sorted ascending. -/
def attempt_strikes (num_strikes : Nat) (S : ℚ) (spacing : ℤ) : List ℚ :=
  sort_asc ((List.range num_strikes).map (fun (i : Nat) =>
    max (((pyround (S / (spacing : ℚ)) * spacing : ℤ) +
          (((i : ℤ) - ((num_strikes / 2 : Nat) : ℤ)) * spacing : ℤ) : ℤ) : ℚ)
        ((spacing : ℤ) : ℚ)))

/-- The generation-time row check of `generate_options_ladder_fast`
(the `intrinsic_check` variable): call and put at or above intrinsic value,
with no tolerance. -/
def intrinsic_check (S K call_price put_price : ℚ) : Bool :=
  decide (call_price ≥ max (S - K) 0) && decide (put_price ≥ max (K - S) 0)

/-- The per-strike body of the attempt loop: price each strike, derive the put
from parity, check intrinsic value and parity, and stop at the first failing
row (`break`), keeping the rows built before it, exactly as the source does. -/
def build_rows (core : BSCore) (S r T base_sigma r_c : ℚ) (vadj : Nat → ℚ) :
    List ℚ → Nat → List LadderRow × Bool
  | [], _ => ([], true)
  | K :: rest, i =>
    let vol_adjustment := vadj i
    let sigma := max (base_sigma + vol_adjustment) (12/100)
    let call_price := round2 (black_scholes_call core S K r T sigma)
    let put_price := round2 (call_price - S + K - r_c)
    let parity_check := round4 ((call_price - put_price) - (S - K + r_c))
    if intrinsic_check S K call_price put_price && decide (|parity_check| < 1/100) then
      let next := build_rows core S r T base_sigma r_c vadj rest (i + 1)
      (⟨call_price, K, put_price⟩ :: next.1, next.2)
    else ([], false)

/-- The monotonicity pass: calls must not increase by more than `0.01` and
puts must not decrease by more than `0.01` from one strike to the next. -/
def monotonicity_ok : List LadderRow → Bool
  | r1 :: r2 :: rest =>
    if r2.call_price > r1.call_price + 1/100 then false
    else if r2.put_price < r1.put_price - 1/100 then false
    else monotonicity_ok (r2 :: rest)
  | _ => true

/-- The box-spread no-arbitrage pass: for each adjacent pair the call spread
plus the put spread must equal the strike difference within `0.05`. -/
def arbitrage_ok : List LadderRow → Bool
  | r1 :: r2 :: rest =>
    decide (|((r1.call_price - r2.call_price) + (r2.put_price - r1.put_price)) -
             (r2.strike - r1.strike)| ≤ 5/100) && arbitrage_ok (r2 :: rest)
  | _ => true

/-- One attempt of the rejection loop: sample (here: read the draws), build
the candidate ladder, and validate it.  Returns the candidate triple
`(ladder, round(stock_price, 2), r_c)` and its validity flag. -/
def run_attempt (core : BSCore) (num_strikes : Nat) (d : AttemptDraws) :
    (List LadderRow × ℚ × ℚ) × Bool :=
  let S := d.stock_price
  let spacing := pick_spacing S d.spacing_coin
  let strikes := attempt_strikes num_strikes S spacing
  let r_c := round2 d.r_c_raw
  let rows := build_rows core S d.r d.T d.base_sigma r_c d.vol_adj strikes 0
  let valid := rows.2 && monotonicity_ok rows.1 && arbitrage_ok rows.1
  ((rows.1, round2 S, r_c), valid)

/-- The bounded rejection loop: return the first validated attempt, and after
the attempt budget is exhausted return the last candidate regardless of
validity.  `k` is the index into the entropy stream, `fuel` the number of
attempts still allowed after the current one. -/
def gen_loop (core : BSCore) (num_strikes : Nat) (ent : Nat → AttemptDraws) :
    Nat → Nat → List LadderRow × ℚ × ℚ
  | k, 0 => (run_attempt core num_strikes (ent k)).1
  | k, fuel + 1 =>
    let a := run_attempt core num_strikes (ent k)
    if a.2 then a.1 else gen_loop core num_strikes ent (k + 1) fuel

/-- `generate_options_ladder_fast(num_strikes)`: 100 attempts
(`max_attempts = 100`), returning `(ladder, stock_price, r_c)`. -/
def generate_options_ladder_fast (num_strikes : Nat) (core : BSCore)
    (ent : Nat → AttemptDraws) : List LadderRow × ℚ × ℚ :=
  gen_loop core num_strikes ent 0 99

/-- The solver's working state in `verify_exercise_solvable`: the two known
maps (strike → price) plus the round's `progress_made` flag. -/
structure SolveSt where
  known_calls : List (ℚ × ℚ)
  known_puts : List (ℚ × ℚ)
  progress_made : Bool
deriving DecidableEq, Repr

/-- Seeding one explicit price into the working state (skipping `None`). -/
def seed_step (st : SolveSt) : (ℚ × Side) × Option ℚ → SolveSt
  | (_, none) => st
  | ((K, Side.call), some v) => { st with known_calls := dinsert st.known_calls K v }
  | ((K, Side.put), some v) => { st with known_puts := dinsert st.known_puts K v }

/-- The initial working state: all non-`None` explicit prices. -/
def seed_state (e : ExerciseData) : SolveSt :=
  e.explicit_prices.foldl seed_step ⟨[], [], false⟩

/-- One strike of the put-call-parity phase: fill the missing side from the
known side (`put = call - S + K - r_c`, rounded to cents, or the inverse). -/
def parity_step (S r_c : ℚ) (st : SolveSt) (K : ℚ) : SolveSt :=
  if dmem st.known_calls K && !dmem st.known_puts K then
    { st with
      known_puts := dinsert st.known_puts K
        (round2 ((dfind st.known_calls K).getD 0 - S + K - r_c))
      progress_made := true }
  else if dmem st.known_puts K && !dmem st.known_calls K then
    { st with
      known_calls := dinsert st.known_calls K
        (round2 ((dfind st.known_puts K).getD 0 + S - K + r_c))
      progress_made := true }
  else st

/-- The parity phase of one solver round: every strike in order. -/
def parity_pass (e : ExerciseData) (S r_c : ℚ) (st : SolveSt) : SolveSt :=
  e.strikes.foldl (parity_step S r_c) st

/-- One disclosed spread of the spread phase: fill one endpoint from the other
(`call2 = call1 - spread` / inverse, `put2 = put1 + spread` / inverse). -/
def spread_step (st : SolveSt) : (ℚ × ℚ × Side) × Option ℚ → SolveSt
  | (_, none) => st
  | ((strike1, strike2, Side.call), some v) =>
    if dmem st.known_calls strike1 && !dmem st.known_calls strike2 then
      { st with
        known_calls := dinsert st.known_calls strike2
          (round2 ((dfind st.known_calls strike1).getD 0 - v))
        progress_made := true }
    else if dmem st.known_calls strike2 && !dmem st.known_calls strike1 then
      { st with
        known_calls := dinsert st.known_calls strike1
          (round2 ((dfind st.known_calls strike2).getD 0 + v))
        progress_made := true }
    else st
  | ((strike1, strike2, Side.put), some v) =>
    if dmem st.known_puts strike1 && !dmem st.known_puts strike2 then
      { st with
        known_puts := dinsert st.known_puts strike2
          (round2 ((dfind st.known_puts strike1).getD 0 + v))
        progress_made := true }
    else if dmem st.known_puts strike2 && !dmem st.known_puts strike1 then
      { st with
        known_puts := dinsert st.known_puts strike1
          (round2 ((dfind st.known_puts strike2).getD 0 - v))
        progress_made := true }
    else st

/-- The spread phase of one solver round: every spread entry in dict order. -/
def spread_pass (e : ExerciseData) (st : SolveSt) : SolveSt :=
  e.spreads.foldl spread_step st

/-- One round of the solver: reset `progress_made`, then the parity phase,
then the spread phase. -/
def one_iteration (e : ExerciseData) (S r_c : ℚ) (st : SolveSt) : SolveSt :=
  spread_pass e (parity_pass e S r_c { st with progress_made := false })

/-- The bounded fixpoint loop (`max_iterations = 50`): iterate rounds, and
stop early as soon as a round makes no new derivation. -/
def solve_loop (e : ExerciseData) (S r_c : ℚ) : Nat → SolveSt → SolveSt
  | 0, st => st
  | fuel + 1, st =>
    let st' := one_iteration e S r_c st
    if st'.progress_made then solve_loop e S r_c fuel st' else st'

/-- The derivation state after `verify_exercise_solvable`'s propagation. -/
def solve_state (e : ExerciseData) (S r_c : ℚ) : SolveSt :=
  solve_loop e S r_c 50 (seed_state e)

/-- `verify_exercise_solvable(exercise_data, stock_price, r_c)`: propagate to
the (bounded) fixpoint, then report whether every strike has at least one of
call/put known (the source compares set sizes). -/
def verify_exercise_solvable (e : ExerciseData) (S r_c : ℚ) : Bool :=
  let st := solve_state e S r_c
  let all_strikes := e.strikes.dedup
  let solved_strictly := all_strikes.filter
    (fun K => dmem st.known_calls K || dmem st.known_puts K)
  solved_strictly.length == all_strikes.length

/-- Adjacent pairs of ladder rows, i.e. the index pairs `(i, i+1)` the source
iterates over. -/
def adjacent_pairs : List LadderRow → List (LadderRow × LadderRow)
  | r1 :: r2 :: rest => (r1, r2) :: adjacent_pairs (r2 :: rest)
  | _ => []

/-- The `spreads` dict of `calculate_all_spreads`: call, put and box spreads
between adjacent strikes, rounded to cents. -/
structure SpreadSet where
  call_spreads : List ((ℚ × ℚ) × ℚ)
  put_spreads : List ((ℚ × ℚ) × ℚ)
  box_spreads : List ((ℚ × ℚ) × ℚ)
deriving DecidableEq, Repr

/-- `calculate_all_spreads(ladder)`. -/
def calculate_all_spreads (ladder : List LadderRow) : SpreadSet :=
  (adjacent_pairs ladder).foldl (fun s p =>
    { call_spreads := dinsert s.call_spreads (p.1.strike, p.2.strike)
        (round2 (p.1.call_price - p.2.call_price))
      put_spreads := dinsert s.put_spreads (p.1.strike, p.2.strike)
        (round2 (p.2.put_price - p.1.put_price))
      box_spreads := dinsert s.box_spreads (p.1.strike, p.2.strike)
        (round2 ((p.1.call_price - p.2.call_price) + (p.2.put_price - p.1.put_price))) })
    ⟨[], [], []⟩

/-- The all-hidden puzzle skeleton that both exercise builders start from:
every `(strike, side)` explicit price and every adjacent-pair call/put spread
initialized to `None`, in the source's insertion order. -/
def init_exercise_data (real_ladder : List LadderRow) : ExerciseData :=
  { explicit_prices := real_ladder.foldl (fun l row =>
      dinsert (dinsert l (row.strike, Side.call) none) (row.strike, Side.put) none) []
    spreads := (adjacent_pairs real_ladder).foldl (fun l p =>
      dinsert (dinsert l (p.1.strike, p.2.strike, Side.call) none)
        (p.1.strike, p.2.strike, Side.put) none) []
    strikes := real_ladder.map (·.strike) }

/-- `create_simple_solvable_exercise(real_ladder, spreads)`: disclose the
first strike's call price plus, by one coin (`coin = true` means
`random.random() < 0.5`), either every call spread or every put spread.
The source indexes `real_ladder[0]` and would raise on an empty ladder; the
model returns the bare skeleton in that (unreached) case.  The spread values
are looked up in `spreads`; an absent pair key (a `KeyError` in the source,
impossible at the call site) is modelled as storing `none`. -/
def create_simple_solvable_exercise (real_ladder : List LadderRow)
    (spreads : SpreadSet) (coin : Bool) : ExerciseData :=
  let base := init_exercise_data real_ladder
  match real_ladder with
  | [] => base
  | r0 :: _ =>
    let e1 := { base with
      explicit_prices := dinsert base.explicit_prices (r0.strike, Side.call)
        (some r0.call_price) }
    if coin then
      { e1 with spreads := (adjacent_pairs real_ladder).foldl (fun l p =>
          dinsert l (p.1.strike, p.2.strike, Side.call)
            (dfind spreads.call_spreads (p.1.strike, p.2.strike))) e1.spreads }
    else
      { e1 with spreads := (adjacent_pairs real_ladder).foldl (fun l p =>
          dinsert l (p.1.strike, p.2.strike, Side.put)
            (dfind spreads.put_spreads (p.1.strike, p.2.strike))) e1.spreads }

/-- Pass 1 of `add_fallback_hints`: for every adjacent pair that has neither a
call nor a put spread disclosed, disclose one, the side chosen by a coin
(`true` means `random.random() < 0.5`, i.e. the call side).  `cnt` indexes the
coin stream; a coin is consumed only when a spread is actually added. -/
def afh_pass1 (coins : Nat → Bool) :
    List (LadderRow × LadderRow) → ExerciseData → Nat → ExerciseData × Nat
  | [], e, cnt => (e, cnt)
  | p :: rest, e, cnt =>
    let strike1 := p.1.strike
    let strike2 := p.2.strike
    let has_call_spread := (sget e (strike1, strike2, Side.call)).isSome
    let has_put_spread := (sget e (strike1, strike2, Side.put)).isSome
    if !has_call_spread && !has_put_spread then
      let e' :=
        if coins cnt then
          { e with
            spreads := dinsert e.spreads (strike1, strike2, Side.call)
              (some (round2 (p.1.call_price - p.2.call_price))) }
        else
          { e with
            spreads := dinsert e.spreads (strike1, strike2, Side.put)
              (some (round2 (p.2.put_price - p.1.put_price))) }
      afh_pass1 coins rest e' (cnt + 1)
    else afh_pass1 coins rest e cnt

/-- Pass 2 of `add_fallback_hints`: disclose one explicit price (side chosen
by a coin) at the first strike that has neither side disclosed, then stop. -/
def afh_pass2 (coins : Nat → Bool) :
    List LadderRow → ExerciseData → Nat → ExerciseData
  | [], e, _ => e
  | row :: rest, e, cnt =>
    if (epget e (row.strike, Side.call)).isSome ||
       (epget e (row.strike, Side.put)).isSome then
      afh_pass2 coins rest e cnt
    else if coins cnt then
      { e with
        explicit_prices := dinsert e.explicit_prices (row.strike, Side.call)
          (some row.call_price) }
    else
      { e with
        explicit_prices := dinsert e.explicit_prices (row.strike, Side.put)
          (some row.put_price) }

/-- `add_fallback_hints(real_ladder, exercise_data)`: return the puzzle
unchanged if it is already solvable (probed with dummy parameters `0, 0`);
otherwise run Pass 1 and then, unconditionally, Pass 2. -/
def add_fallback_hints (real_ladder : List LadderRow) (e : ExerciseData)
    (coins : Nat → Bool) : ExerciseData :=
  if verify_exercise_solvable e 0 0 then e
  else
    let p1 := afh_pass1 coins (adjacent_pairs real_ladder) e 0
    afh_pass2 coins real_ladder p1.1 p1.2

/-- The diagnostics of `validate_ladder`.  The source records human-readable
strings; the model records the offending strike (twice per row when both the
call and the put violate), resp. the offending adjacent strike pair, in the
same order. -/
structure ValidationResults where
  intrinsic_violations : List ℚ
  parity_violations : List ℚ
  monotonicity_violations : List ℚ
  arbitrage_opportunities : List (ℚ × ℚ)
  valid : Bool
deriving DecidableEq, Repr

/-- The intrinsic-value diagnostics step of `validate_ladder` for one row:
append the strike for a call below `intrinsic - 0.01`, then again for a put
below `intrinsic - 0.01`. -/
def iv_step (stock_price : ℚ) (acc : List ℚ) (row : LadderRow) : List ℚ :=
  let acc1 := if row.call_price < max (stock_price - row.strike) 0 - 1/100
    then acc ++ [row.strike] else acc
  if row.put_price < max (row.strike - stock_price) 0 - 1/100
    then acc1 ++ [row.strike] else acc1

/-- The parity diagnostics step of `validate_ladder` for one row, with the
standalone validator's looser `0.02` tolerance. -/
def pv_step (stock_price r_c : ℚ) (acc : List ℚ) (row : LadderRow) : List ℚ :=
  if |(row.call_price - row.put_price) - (stock_price - row.strike + r_c)| > 2/100
    then acc ++ [row.strike] else acc

/-- The monotonicity diagnostics step of `validate_ladder` for one adjacent
pair. -/
def mv_step (acc : List ℚ) (p : LadderRow × LadderRow) : List ℚ :=
  let acc1 := if p.2.call_price > p.1.call_price + 1/100
    then acc ++ [p.2.strike] else acc
  if p.2.put_price < p.1.put_price - 1/100
    then acc1 ++ [p.2.strike] else acc1

/-- The box-spread diagnostics step of `validate_ladder` for one adjacent
pair. -/
def av_step (acc : List (ℚ × ℚ)) (p : LadderRow × LadderRow) : List (ℚ × ℚ) :=
  if |((p.1.call_price - p.2.call_price) + (p.2.put_price - p.1.put_price)) -
      (p.2.strike - p.1.strike)| > 5/100
    then acc ++ [(p.1.strike, p.2.strike)] else acc

/-- `validate_ladder(ladder, stock_price, r_c)`: the standalone validator,
with the looser `0.02` parity tolerance. -/
def validate_ladder (ladder : List LadderRow) (stock_price r_c : ℚ) :
    ValidationResults :=
  let iv := ladder.foldl (iv_step stock_price) []
  let pv := ladder.foldl (pv_step stock_price r_c) []
  let mv := (adjacent_pairs ladder).foldl mv_step []
  let av := (adjacent_pairs ladder).foldl av_step []
  { intrinsic_violations := iv
    parity_violations := pv
    monotonicity_violations := mv
    arbitrage_opportunities := av
    valid := iv.isEmpty && pv.isEmpty && mv.isEmpty && av.isEmpty }

/-- One row of the user's submission to `check_answers`: the tuple
`(call_price, strike, put_price)` with `None` for unattempted sides. -/
structure AnswerRow where
  call : Option ℚ
  strike : ℚ
  put : Option ℚ
deriving DecidableEq, Repr

/-- One row of `check_answers`' result. -/
structure AnswerCheck where
  strike : ℚ
  call_correct : Bool
  put_correct : Bool
  call_difference : Option ℚ
  put_difference : Option ℚ
deriving DecidableEq, Repr

/-- `check_answers(real_ladder, user_answers)` with its `tolerance = 0.05`:
a side is correct when unattempted (`None`) or within tolerance of the real
price; the signed difference is recorded when attempted. -/
def check_answers (real_ladder : List LadderRow) (user_answers : List AnswerRow) :
    List AnswerCheck :=
  (real_ladder.zip user_answers).map fun p =>
    { strike := p.1.strike
      call_correct := match p.2.call with
        | none => true
        | some v => decide (|v - p.1.call_price| ≤ 5/100)
      put_correct := match p.2.put with
        | none => true
        | some v => decide (|v - p.1.put_price| ≤ 5/100)
      call_difference := match p.2.call with
        | none => none
        | some v => some (v - p.1.call_price)
      put_difference := match p.2.put with
        | none => none
        | some v => some (v - p.1.put_price) }

/-- The explicit-price disclosure pattern of a puzzle: each key with the flag
telling whether its value is disclosed (non-`None`). -/
def ep_pattern (e : ExerciseData) : List ((ℚ × Side) × Bool) :=
  e.explicit_prices.map (fun p => (p.1, p.2.isSome))

/-- The spread disclosure pattern of a puzzle. -/
def sp_pattern (e : ExerciseData) : List ((ℚ × ℚ × Side) × Bool) :=
  e.spreads.map (fun p => (p.1, p.2.isSome))

/-- The full disclosure pattern: which keys are disclosed, plus the strikes
list — everything about a puzzle except the numeric values. -/
def disclosure_pattern (e : ExerciseData) :
    List ((ℚ × Side) × Bool) × List ((ℚ × ℚ × Side) × Bool) × List ℚ :=
  (ep_pattern e, sp_pattern e, e.strikes)

/-- A Black–Scholes core oracle whose value is `7.00` at the draws of
`drawsC1` (a deep in-the-money call: `S = 12`, first strike `5`). -/
def coreC1 : BSCore := fun _ _ _ _ _ => 7

/-- Concrete draws exercising the fallback path: `S = 12`, spacing `5`,
`r_c = 1.50`.  The first row then gets `call = 7.00` (its intrinsic value) and
`put = round2(7 - 12 + 5 - 1.5) = -1.50`, which fails the put intrinsic check,
so the attempt breaks with an empty partial ladder. -/
def drawsC1 : AttemptDraws := ⟨12, true, 3/100, 1, 1/5, 3/2, fun _ => 1/50⟩

/-- A Black–Scholes core oracle whose value is `5.01` at the draws of
`drawsC2`. -/
def coreC2 : BSCore := fun _ _ _ _ _ => 501/100

/-- Concrete draws hitting the half-cent boundary: `S = 10.015`, strike `10`,
`r_c = 1.00`, `call = 5.01`, so `put = round2(3.995) = 4.00` and the returned
stock price is `round2(10.015) = 10.02`. -/
def drawsC2 : AttemptDraws := ⟨2003/200, true, 3/100, 1, 1/5, 1, fun _ => 0⟩

/-- A concrete real ladder with strikes `10` and `15`. -/
def ladderC4 : List LadderRow := [⟨5, 10, 4⟩, ⟨3, 15, 8⟩]

/-- A concrete unsolvable puzzle over `ladderC4`: only the call at strike `10`
is disclosed and no spreads are disclosed. -/
def exC4 : ExerciseData :=
  ⟨[((10, Side.call), some 5), ((10, Side.put), none),
    ((15, Side.call), none), ((15, Side.put), none)],
   [((10, 15, Side.call), none), ((10, 15, Side.put), none)], [10, 15]⟩

/-- The coin stream on which every `random.random() < 0.5` draw succeeds. -/
def coins_true : Nat → Bool := fun _ => true

/-- A concrete solvable puzzle: anchor call at `10` plus the call spread to
`15`. -/
def exA : ExerciseData :=
  ⟨[((10, Side.call), some 5)], [((10, 15, Side.call), some 2)], [10, 15]⟩

/-- The same disclosure pattern as `exA` with different numeric values. -/
def exB : ExerciseData :=
  ⟨[((10, Side.call), some 7)], [((10, 15, Side.call), some 1)], [10, 15]⟩

/-- A concrete puzzle disclosing exactly one explicit price (the call at
strike `10`) and no spreads, over two strikes. -/
def exC6 : ExerciseData :=
  ⟨[((10, Side.call), some 5), ((15, Side.call), none)],
   [((10, 15, Side.call), none)], [10, 15]⟩

/-- A one-row real ladder for the answer checker. -/
def realC10 : List LadderRow := [⟨5, 10, 4⟩]

/-- A one-row submission: call unattempted, put off by `0.10`. -/
def userC10 : List AnswerRow := [⟨none, 10, some (41/10)⟩]

/-- The key list of an association-list dict. -/
def dkeys {α β : Type} (d : List (α × β)) : List α := d.map Prod.fst

/-- The size of the derivation state: number of distinct known call strikes
plus number of distinct known put strikes (proof-side measure). -/
def state_size (st : SolveSt) : ℕ :=
  (dkeys st.known_calls).toFinset.card + (dkeys st.known_puts).toFinset.card

/-- Every known call or put strike of the state lies among the puzzle's
strikes (proof-side invariant of the propagation). -/
def keys_sub (e : ExerciseData) (st : SolveSt) : Prop :=
  (∀ k, dmem st.known_calls k = true → k ∈ e.strikes) ∧
  (∀ k, dmem st.known_puts k = true → k ∈ e.strikes)

/-- The spread entries of the all-hidden skeleton, in insertion order: for
each adjacent pair, the call entry then the put entry, both `None`. -/
def init_entries : List (LadderRow × LadderRow) → List ((ℚ × ℚ × Side) × Option ℚ)
  | [] => []
  | p :: rest =>
    ((p.1.strike, p.2.strike, Side.call), none) ::
    ((p.1.strike, p.2.strike, Side.put), none) :: init_entries rest

/-- The spread entries of the fallback puzzle when the coin picked the call
side: every call spread disclosed from the spread set, every put spread
hidden. -/
def chain_entries_call (spreads : SpreadSet) :
    List (LadderRow × LadderRow) → List ((ℚ × ℚ × Side) × Option ℚ)
  | [] => []
  | p :: rest =>
    ((p.1.strike, p.2.strike, Side.call),
      dfind spreads.call_spreads (p.1.strike, p.2.strike)) ::
    ((p.1.strike, p.2.strike, Side.put), none) :: chain_entries_call spreads rest

/-- The spread entries of the fallback puzzle when the coin picked the put
side. -/
def chain_entries_put (spreads : SpreadSet) :
    List (LadderRow × LadderRow) → List ((ℚ × ℚ × Side) × Option ℚ)
  | [] => []
  | p :: rest =>
    ((p.1.strike, p.2.strike, Side.call), none) ::
    ((p.1.strike, p.2.strike, Side.put),
      dfind spreads.put_spreads (p.1.strike, p.2.strike)) ::
    chain_entries_put spreads rest

/-- Rounding moves a rational by at most a half. -/
theorem pyround_abs_le (x : ℚ) : |x - (pyround x : ℚ)| ≤ 1/2 := by
  have h0 : (⌊x⌋ : ℚ) ≤ x := Int.floor_le x
  have h1 : x < (⌊x⌋ : ℚ) + 1 := Int.lt_floor_add_one x
  unfold pyround
  split_ifs <;> rw [abs_le] <;> push_cast <;> constructor <;> linarith

/-- Cent rounding moves a rational by at most half a cent. -/
theorem round2_abs_le (x : ℚ) : |x - round2 x| ≤ 1/200 := by
  have h := pyround_abs_le (x * 100)
  rw [abs_le] at h ⊢
  unfold round2
  constructor <;> linarith [h.1, h.2]

/-- Every row the attempt loop appends has its put derived from the call by
the cent-rounded parity formula. -/
theorem build_rows_put (core : BSCore) (S r T bs r_c : ℚ) (vadj : Nat → ℚ) :
    ∀ (ks : List ℚ) (i : Nat) (row : LadderRow),
      row ∈ (build_rows core S r T bs r_c vadj ks i).1 →
      row.put_price = round2 (row.call_price - S + row.strike - r_c) := by
  intro ks
  induction ks with
  | nil => intro i row h; simp [build_rows] at h
  | cons K rest ih =>
    intro i row h
    simp only [build_rows] at h
    split at h
    · rcases List.mem_cons.mp h with h1 | h2
      · subst h1; rfl
      · exact ih (i + 1) row h2
    · simp at h

/-- The attempt loop never builds more rows than there are strikes. -/
theorem build_rows_length_le (core : BSCore) (S r T bs r_c : ℚ) (vadj : Nat → ℚ) :
    ∀ (ks : List ℚ) (i : Nat),
      (build_rows core S r T bs r_c vadj ks i).1.length ≤ ks.length := by
  intro ks
  induction ks with
  | nil => intro i; simp [build_rows]
  | cons K rest ih =>
    intro i
    simp only [build_rows]
    split
    · simpa using ih (i + 1)
    · simp

/-- When the attempt loop completes without a failing row, it builds one row
per strike. -/
theorem build_rows_length_of_ok (core : BSCore) (S r T bs r_c : ℚ) (vadj : Nat → ℚ) :
    ∀ (ks : List ℚ) (i : Nat),
      (build_rows core S r T bs r_c vadj ks i).2 = true →
      (build_rows core S r T bs r_c vadj ks i).1.length = ks.length := by
  intro ks
  induction ks with
  | nil => intro i _; simp [build_rows]
  | cons K rest ih =>
    intro i h
    simp only [build_rows] at h ⊢
    split at h
    · rename_i hc
      simp only [hc, if_true]
      simpa using ih (i + 1) h
    · simp at h

/-- Inserting into a list grows its length by one. -/
theorem length_insert_sorted (x : ℚ) :
    ∀ l : List ℚ, (insert_sorted x l).length = l.length + 1 := by
  intro l
  induction l with
  | nil => rfl
  | cons y ys ih =>
    simp only [insert_sorted]
    split <;> simp [ih]

/-- Sorting preserves length. -/
theorem length_sort_asc (l : List ℚ) : (sort_asc l).length = l.length := by
  induction l with
  | nil => rfl
  | cons x xs ih =>
    show (insert_sorted x (sort_asc xs)).length = xs.length + 1
    rw [length_insert_sorted, ih]

/-- Each attempt draws exactly `num_strikes` strikes. -/
theorem length_attempt_strikes (n : Nat) (S : ℚ) (spacing : ℤ) :
    (attempt_strikes n S spacing).length = n := by
  rw [attempt_strikes, length_sort_asc, List.length_map, List.length_range]

/-- An attempt's candidate ladder has at most `num_strikes` rows. -/
theorem run_attempt_length_le (core : BSCore) (n : Nat) (d : AttemptDraws) :
    (run_attempt core n d).1.1.length ≤ n := by
  simp only [run_attempt]
  calc (build_rows core d.stock_price d.r d.T d.base_sigma (round2 d.r_c_raw)
          d.vol_adj (attempt_strikes n d.stock_price
            (pick_spacing d.stock_price d.spacing_coin)) 0).1.length
      ≤ (attempt_strikes n d.stock_price
          (pick_spacing d.stock_price d.spacing_coin)).length :=
        build_rows_length_le _ _ _ _ _ _ _ _ _
    _ = n := length_attempt_strikes _ _ _

/-- A validated attempt's candidate ladder has exactly `num_strikes` rows. -/
theorem run_attempt_length_of_valid (core : BSCore) (n : Nat) (d : AttemptDraws)
    (h : (run_attempt core n d).2 = true) :
    (run_attempt core n d).1.1.length = n := by
  simp only [run_attempt] at h ⊢
  rw [Bool.and_eq_true, Bool.and_eq_true] at h
  rw [build_rows_length_of_ok _ _ _ _ _ _ _ _ _ h.1.1, length_attempt_strikes]

/-- The rejection loop always returns the candidate of one of the attempts. -/
theorem gen_loop_cases (core : BSCore) (n : Nat) (ent : Nat → AttemptDraws) :
    ∀ (fuel k : Nat), ∃ j, gen_loop core n ent k fuel = (run_attempt core n (ent j)).1 := by
  intro fuel
  induction fuel with
  | zero => intro k; exact ⟨k, rfl⟩
  | succ f ih =>
    intro k
    by_cases hv : (run_attempt core n (ent k)).2 = true
    · exact ⟨k, by simp [gen_loop, hv]⟩
    · obtain ⟨j, hj⟩ := ih (k + 1)
      exact ⟨j, by simp [gen_loop, Bool.eq_false_iff.mpr hv, hj]⟩

/-- C1 (amended): for every `numStrikes`, every Black–Scholes core and every
entropy stream, the returned ladder has at most `numStrikes` rows, and any
validated attempt's candidate has exactly `numStrikes` rows; on the
no-valid-attempt fallback path the returned candidate may have fewer rows,
because the attempt loop breaks at the first failing row. -/
theorem C1_ladder_row_count (num_strikes : Nat) (core : BSCore)
    (ent : Nat → AttemptDraws) :
    (generate_options_ladder_fast num_strikes core ent).1.length ≤ num_strikes ∧
    (∀ d : AttemptDraws, (run_attempt core num_strikes d).2 = true →
      (run_attempt core num_strikes d).1.1.length = num_strikes) := by
  constructor
  · obtain ⟨j, hj⟩ := gen_loop_cases core num_strikes ent 99 0
    rw [generate_options_ladder_fast, hj]
    exact run_attempt_length_le core num_strikes (ent j)
  · intro d hd
    exact run_attempt_length_of_valid core num_strikes d hd

/-- C1 witness: the single attempt of `drawsC2`/`coreC2` validates and indeed
produces exactly one row for `numStrikes = 1`. -/
theorem C1_ladder_row_count_witness :
    (run_attempt coreC2 1 drawsC2).2 = true ∧
    (run_attempt coreC2 1 drawsC2).1.1.length = 1 :=
  ⟨by decide,
   (C1_ladder_row_count 1 coreC2 (fun _ => drawsC2)).2 drawsC2 (by decide)⟩

/-- C1 counterexample: with `numStrikes = 2` and entropy on which every
attempt's first row fails the put intrinsic check, all 100 attempts break at
row 0 and the fallback returns an empty ladder, not 2 rows. -/
theorem C1_counterexample :
    ¬ (generate_options_ladder_fast 2 coreC1 (fun _ => drawsC1)).1.length = 2 := by
  decide

/-- C2 (amended): every row of every returned ladder satisfies the parity
identity against the returned (cent-rounded) stock price and `r_c` within
`0.01` inclusive; the strict `< 0.01` bound of the claim fails exactly at the
half-cent rounding boundary. -/
theorem C2_parity_within_cents (num_strikes : Nat) (core : BSCore)
    (ent : Nat → AttemptDraws) :
    ∀ row ∈ (generate_options_ladder_fast num_strikes core ent).1,
      |(row.call_price - row.put_price) -
        ((generate_options_ladder_fast num_strikes core ent).2.1 - row.strike +
         (generate_options_ladder_fast num_strikes core ent).2.2)| ≤ 1/100 := by
  obtain ⟨j, hj⟩ := gen_loop_cases core num_strikes ent 99 0
  intro row hrow
  rw [generate_options_ladder_fast, hj] at hrow ⊢
  simp only [run_attempt] at hrow ⊢
  have hput := build_rows_put core (ent j).stock_price (ent j).r (ent j).T
    (ent j).base_sigma (round2 (ent j).r_c_raw) (ent j).vol_adj
    (attempt_strikes num_strikes (ent j).stock_price
      (pick_spacing (ent j).stock_price (ent j).spacing_coin)) 0 row hrow
  have h1 := round2_abs_le
    (row.call_price - (ent j).stock_price + row.strike - round2 (ent j).r_c_raw)
  have h2 := round2_abs_le (ent j).stock_price
  rw [hput]
  rw [abs_le] at h1 h2 ⊢
  constructor <;> linarith [h1.1, h1.2, h2.1, h2.2]

/-- C2 witness: the row returned on the draws of `drawsC2` satisfies the
amended inclusive bound. -/
theorem C2_parity_within_cents_witness :
    (⟨501/100, 10, 4⟩ : LadderRow) ∈
      (generate_options_ladder_fast 1 coreC2 (fun _ => drawsC2)).1 ∧
    |(((501:ℚ)/100) - 4) -
      ((generate_options_ladder_fast 1 coreC2 (fun _ => drawsC2)).2.1 - 10 +
       (generate_options_ladder_fast 1 coreC2 (fun _ => drawsC2)).2.2)| ≤ 1/100 :=
  ⟨by decide,
   C2_parity_within_cents 1 coreC2 (fun _ => drawsC2) ⟨501/100, 10, 4⟩ (by decide)⟩

/-- C2 counterexample: on the draws of `drawsC2` the returned ladder's single
row has `|(call - put) - (stock_price - strike + r_c)| = 0.01` exactly, so the
claimed strict `< 0.01` bound fails (the parity check passed at generation
time against the unrounded stock price `10.015`, but the function returns the
rounded stock price `10.02`). -/
theorem C2_counterexample :
    ∃ row ∈ (generate_options_ladder_fast 1 coreC2 (fun _ => drawsC2)).1,
      ¬ (|(row.call_price - row.put_price) -
          ((generate_options_ladder_fast 1 coreC2 (fun _ => drawsC2)).2.1 - row.strike +
           (generate_options_ladder_fast 1 coreC2 (fun _ => drawsC2)).2.2)| < 1/100) := by
  decide

/-- One `iv_step` contributes no diagnostic exactly when the row passes both
tolerant intrinsic conditions and the accumulator was empty. -/
theorem iv_step_eq_nil (S : ℚ) (acc : List ℚ) (row : LadderRow) :
    iv_step S acc row = [] ↔ acc = [] ∧
      ¬(row.call_price < max (S - row.strike) 0 - 1/100) ∧
      ¬(row.put_price < max (row.strike - S) 0 - 1/100) := by
  unfold iv_step
  split_ifs with h1 h2 h2 <;> simp_all

/-- The intrinsic diagnostics fold is empty exactly when every row passes the
tolerant intrinsic conditions. -/
theorem iv_foldl_eq_nil (S : ℚ) :
    ∀ (l : List LadderRow) (acc : List ℚ),
      l.foldl (iv_step S) acc = [] ↔ acc = [] ∧ ∀ row ∈ l,
        ¬(row.call_price < max (S - row.strike) 0 - 1/100) ∧
        ¬(row.put_price < max (row.strike - S) 0 - 1/100) := by
  intro l
  induction l with
  | nil => simp
  | cons row rest ih =>
    intro acc
    rw [List.foldl_cons, ih (iv_step S acc row), iv_step_eq_nil]
    simp only [List.mem_cons]
    constructor
    · rintro ⟨⟨hacc, hc, hp⟩, hrest⟩
      refine ⟨hacc, fun q hq => ?_⟩
      rcases hq with rfl | hq
      · exact ⟨hc, hp⟩
      · exact hrest q hq
    · rintro ⟨hacc, hall⟩
      exact ⟨⟨hacc, (hall row (Or.inl rfl)).1, (hall row (Or.inl rfl)).2⟩,
        fun q hq => hall q (Or.inr hq)⟩

/-- C5 (amended): the generation-time row check accepts exactly the rows with
call and put at or above intrinsic value with no tolerance, while the
standalone `validate_ladder` raises no intrinsic diagnostic exactly when every
row is within the `0.01` tolerance below intrinsic value. -/
theorem C5_intrinsic_acceptance (S K c p r_c : ℚ) (ladder : List LadderRow) :
    (intrinsic_check S K c p = true ↔ (max (S - K) 0 ≤ c ∧ max (K - S) 0 ≤ p)) ∧
    ((validate_ladder ladder S r_c).intrinsic_violations = [] ↔
      ∀ row ∈ ladder, max (S - row.strike) 0 - 1/100 ≤ row.call_price ∧
        max (row.strike - S) 0 - 1/100 ≤ row.put_price) := by
  constructor
  · simp [intrinsic_check, ge_iff_le, and_comm]
  · show ladder.foldl (iv_step S) [] = [] ↔ _
    rw [iv_foldl_eq_nil]
    simp only [not_lt, true_and]

/-- C5 witness: a concrete one-row ladder instantiating the amended
acceptance conditions. -/
theorem C5_intrinsic_acceptance_witness :
    (intrinsic_check 10 5 5 0 = true ↔ (max ((10:ℚ) - 5) 0 ≤ 5 ∧ max ((5:ℚ) - 10) 0 ≤ 0)) ∧
    ((validate_ladder [⟨499/100, 5, 0⟩] 10 1).intrinsic_violations = [] ↔
      ∀ row ∈ [(⟨499/100, 5, 0⟩ : LadderRow)],
        max ((10:ℚ) - row.strike) 0 - 1/100 ≤ row.call_price ∧
        max (row.strike - (10:ℚ)) 0 - 1/100 ≤ row.put_price) :=
  C5_intrinsic_acceptance 10 5 5 0 1 [⟨499/100, 5, 0⟩]

/-- C5 counterexample: the row `call = 4.99`, `put = 0` at strike `5` with
stock price `10` satisfies the claimed tolerant conditions
(`call ≥ intrinsic - 0.01`, `put ≥ intrinsic - 0.01`), yet the generation-time
check inside `generate_options_ladder_fast` rejects it: that check has no
`-0.01` tolerance. -/
theorem C5_counterexample :
    intrinsic_check 10 5 (499/100) 0 = false ∧
    ((499:ℚ)/100 ≥ max ((10:ℚ) - 5) 0 - 1/100 ∧ (0:ℚ) ≥ max ((5:ℚ) - 10) 0 - 1/100) := by
  constructor
  · decide
  · constructor <;> norm_num

/-- C10: in `check_answers`, an unattempted (`None`) side is reported correct
with a `None` difference, and a side's correctness flag is `false` only when a
value was submitted for it and it misses the real price by more than the
`0.05` tolerance. -/
theorem C10_answer_flags (real_ladder : List LadderRow)
    (user_answers : List AnswerRow) (i : Nat)
    (h1 : i < (check_answers real_ladder user_answers).length)
    (h2 : i < (real_ladder.zip user_answers).length) :
    (((real_ladder.zip user_answers).get ⟨i, h2⟩).2.call = none →
      ((check_answers real_ladder user_answers).get ⟨i, h1⟩).call_correct = true ∧
      ((check_answers real_ladder user_answers).get ⟨i, h1⟩).call_difference = none) ∧
    (((check_answers real_ladder user_answers).get ⟨i, h1⟩).call_correct = false →
      ∃ v, ((real_ladder.zip user_answers).get ⟨i, h2⟩).2.call = some v ∧
        |v - ((real_ladder.zip user_answers).get ⟨i, h2⟩).1.call_price| > 5/100) ∧
    (((real_ladder.zip user_answers).get ⟨i, h2⟩).2.put = none →
      ((check_answers real_ladder user_answers).get ⟨i, h1⟩).put_correct = true ∧
      ((check_answers real_ladder user_answers).get ⟨i, h1⟩).put_difference = none) ∧
    (((check_answers real_ladder user_answers).get ⟨i, h1⟩).put_correct = false →
      ∃ v, ((real_ladder.zip user_answers).get ⟨i, h2⟩).2.put = some v ∧
        |v - ((real_ladder.zip user_answers).get ⟨i, h2⟩).1.put_price| > 5/100) := by
  have key : (check_answers real_ladder user_answers).get ⟨i, h1⟩ =
      (fun p => ({ strike := p.1.strike
                   call_correct := match p.2.call with
                     | none => true
                     | some v => decide (|v - p.1.call_price| ≤ 5/100)
                   put_correct := match p.2.put with
                     | none => true
                     | some v => decide (|v - p.1.put_price| ≤ 5/100)
                   call_difference := match p.2.call with
                     | none => none
                     | some v => some (v - p.1.call_price)
                   put_difference := match p.2.put with
                     | none => none
                     | some v => some (v - p.1.put_price) } : AnswerCheck))
        ((real_ladder.zip user_answers).get ⟨i, h2⟩) := by
    simp [check_answers, List.get_eq_getElem, List.getElem_map]
  rcases hP : (real_ladder.zip user_answers).get ⟨i, h2⟩ with ⟨r, u⟩
  rw [hP] at key
  rw [key]
  rcases u with ⟨uc, us, up⟩
  rcases uc with _ | v <;> rcases up with _ | w <;>
    refine ⟨?_, ?_, ?_, ?_⟩ <;> simp [not_le]

/-- C10 witness: on `realC10`/`userC10`, the unattempted call is reported
correct with no difference, and the put (off by `0.10`) is reported incorrect
with its submitted value more than `0.05` away. -/
theorem C10_answer_flags_witness :
    (((check_answers realC10 userC10).get ⟨0, by decide⟩).call_correct = true ∧
     ((check_answers realC10 userC10).get ⟨0, by decide⟩).call_difference = none) ∧
    (∃ v, ((realC10.zip userC10).get ⟨0, by decide⟩).2.put = some v ∧
      |v - ((realC10.zip userC10).get ⟨0, by decide⟩).1.put_price| > 5/100) :=
  ⟨(C10_answer_flags realC10 userC10 0 (by decide) (by decide)).1 (by decide),
   (C10_answer_flags realC10 userC10 0 (by decide) (by decide)).2.2.2 (by decide)⟩

/-- C4: evaluation of `add_fallback_hints` at the failing input.  The puzzle
`exC4` is unsolvable; after Pass 1 alone (which adds the missing spread for
the pair `(10, 15)`) it is already solvable, yet `add_fallback_hints` still
adds an explicit price at strike `15` because the source never re-checks
solvability between Pass 1 and Pass 2. -/
theorem C4_pass2_runs_unconditionally :
    verify_exercise_solvable exC4 0 0 = false ∧
    verify_exercise_solvable (afh_pass1 coins_true (adjacent_pairs ladderC4) exC4 0).1 0 0 = true ∧
    epget exC4 (15, Side.call) = none ∧
    epget (add_fallback_hints ladderC4 exC4 coins_true) (15, Side.call) = some 3 := by
  decide

/-- Dict membership is membership in the key list. -/
theorem dmem_iff {α β : Type} [DecidableEq α] (d : List (α × β)) (k : α) :
    dmem d k = true ↔ k ∈ dkeys d := by
  induction d with
  | nil => simp [dmem, dfind, dkeys]
  | cons p rest ih =>
    simp only [dmem, dfind, dkeys, List.map_cons, List.mem_cons] at ih ⊢
    by_cases h : p.1 = k
    · simp [h]
    · rw [if_neg h]
      constructor
      · intro hh
        exact Or.inr (ih.mp hh)
      · rintro (rfl | hm)
        · exact absurd rfl h
        · exact ih.mpr hm

/-- Equal key lists give equal membership tests. -/
theorem dmem_congr {α β₁ β₂ : Type} [DecidableEq α] {d₁ : List (α × β₁)}
    {d₂ : List (α × β₂)} (h : dkeys d₁ = dkeys d₂) (k : α) :
    dmem d₁ k = dmem d₂ k := by
  by_cases hk : k ∈ dkeys d₂
  · rw [(dmem_iff d₁ k).mpr (h ▸ hk), (dmem_iff d₂ k).mpr hk]
  · have h1 : ¬ dmem d₁ k = true := fun hh => hk (h ▸ (dmem_iff d₁ k).mp hh)
    have h2 : ¬ dmem d₂ k = true := fun hh => hk ((dmem_iff d₂ k).mp hh)
    rw [Bool.not_eq_true] at h1 h2
    rw [h1, h2]

/-- Looking up the key just written returns the written value. -/
theorem dfind_dinsert_self {α β : Type} [DecidableEq α] (d : List (α × β))
    (k : α) (v : β) : dfind (dinsert d k v) k = some v := by
  induction d with
  | nil => simp [dinsert, dfind]
  | cons p rest ih =>
    by_cases h : p.1 = k
    · simp only [dinsert]
      rw [if_pos h]
      simp [dfind, h]
    · simp only [dinsert]
      rw [if_neg h]
      simp [dfind, h, ih]

/-- Writing one key leaves every other key's entry unchanged. -/
theorem dfind_dinsert_ne {α β : Type} [DecidableEq α] (d : List (α × β))
    (k k' : α) (v : β) (h : k' ≠ k) :
    dfind (dinsert d k v) k' = dfind d k' := by
  induction d with
  | nil => simp [dinsert, dfind]; exact fun hh => h hh.symm
  | cons p rest ih =>
    by_cases hp : p.1 = k
    · simp only [dinsert]
      rw [if_pos hp]
      have hp' : p.1 ≠ k' := fun hh => h (hh ▸ hp ▸ rfl)
      simp [dfind, hp']
    · simp only [dinsert]
      rw [if_neg hp]
      by_cases hq : p.1 = k'
      · simp [dfind, hq]
      · simp [dfind, hq, ih]

/-- Membership after a write: the written key, or anything already present. -/
theorem dmem_dinsert {α β : Type} [DecidableEq α] (d : List (α × β))
    (k k' : α) (v : β) :
    dmem (dinsert d k v) k' = true ↔ k' = k ∨ dmem d k' = true := by
  by_cases h : k' = k
  · subst h
    simp [dmem, dfind_dinsert_self]
  · rw [dmem, dfind_dinsert_ne d k k' v h, ← dmem]
    simp [h]

/-- Writing a key already present keeps the key list. -/
theorem dkeys_dinsert_of_mem {α β : Type} [DecidableEq α] (d : List (α × β))
    (k : α) (v : β) (h : dmem d k = true) :
    dkeys (dinsert d k v) = dkeys d := by
  induction d with
  | nil => simp [dmem, dfind] at h
  | cons p rest ih =>
    by_cases hp : p.1 = k
    · simp only [dinsert]
      rw [if_pos hp]
      simp [dkeys, hp]
    · simp only [dmem, dfind] at h
      rw [if_neg hp] at h
      simp only [dinsert]
      rw [if_neg hp]
      simp only [dkeys, List.map_cons] at ih ⊢
      rw [ih h]

/-- Writing a fresh key appends it to the key list. -/
theorem dkeys_dinsert_of_not_mem {α β : Type} [DecidableEq α] (d : List (α × β))
    (k : α) (v : β) (h : dmem d k = false) :
    dkeys (dinsert d k v) = dkeys d ++ [k] := by
  induction d with
  | nil => simp [dinsert, dkeys]
  | cons p rest ih =>
    by_cases hp : p.1 = k
    · simp [dmem, dfind, hp] at h
    · simp only [dmem, dfind] at h
      rw [if_neg hp] at h
      simp only [dinsert]
      rw [if_neg hp]
      simp only [dkeys, List.map_cons, List.cons_append] at ih ⊢
      rw [ih h]

/-- Writes at the same key preserve agreement of key lists. -/
theorem dkeys_dinsert_congr {α β : Type} [DecidableEq α]
    {d₁ d₂ : List (α × β)} (h : dkeys d₁ = dkeys d₂) (k : α) (v₁ v₂ : β) :
    dkeys (dinsert d₁ k v₁) = dkeys (dinsert d₂ k v₂) := by
  cases hm : dmem d₂ k
  · rw [dkeys_dinsert_of_not_mem d₁ k v₁ (by rw [dmem_congr h k, hm]),
        dkeys_dinsert_of_not_mem d₂ k v₂ hm, h]
  · rw [dkeys_dinsert_of_mem d₁ k v₁ (by rw [dmem_congr h k, hm]),
        dkeys_dinsert_of_mem d₂ k v₂ hm, h]

/-- The parity step only inspects key membership, so states with equal key
lists and progress flags evolve to states with equal key lists and progress
flags, for any market parameters. -/
theorem parity_step_keys (S₁ r₁ S₂ r₂ : ℚ) (st₁ st₂ : SolveSt) (K : ℚ)
    (hc : dkeys st₁.known_calls = dkeys st₂.known_calls)
    (hp : dkeys st₁.known_puts = dkeys st₂.known_puts)
    (hg : st₁.progress_made = st₂.progress_made) :
    dkeys (parity_step S₁ r₁ st₁ K).known_calls =
      dkeys (parity_step S₂ r₂ st₂ K).known_calls ∧
    dkeys (parity_step S₁ r₁ st₁ K).known_puts =
      dkeys (parity_step S₂ r₂ st₂ K).known_puts ∧
    (parity_step S₁ r₁ st₁ K).progress_made =
      (parity_step S₂ r₂ st₂ K).progress_made := by
  unfold parity_step
  rw [dmem_congr hc K, dmem_congr hp K]
  split_ifs
  · exact ⟨hc, dkeys_dinsert_congr hp K _ _, rfl⟩
  · exact ⟨dkeys_dinsert_congr hc K _ _, hp, rfl⟩
  · exact ⟨hc, hp, hg⟩

/-- The parity phase preserves key-list agreement. -/
theorem parity_fold_keys (S₁ r₁ S₂ r₂ : ℚ) :
    ∀ (ks : List ℚ) (st₁ st₂ : SolveSt),
      dkeys st₁.known_calls = dkeys st₂.known_calls →
      dkeys st₁.known_puts = dkeys st₂.known_puts →
      st₁.progress_made = st₂.progress_made →
      dkeys (ks.foldl (parity_step S₁ r₁) st₁).known_calls =
        dkeys (ks.foldl (parity_step S₂ r₂) st₂).known_calls ∧
      dkeys (ks.foldl (parity_step S₁ r₁) st₁).known_puts =
        dkeys (ks.foldl (parity_step S₂ r₂) st₂).known_puts ∧
      (ks.foldl (parity_step S₁ r₁) st₁).progress_made =
        (ks.foldl (parity_step S₂ r₂) st₂).progress_made := by
  intro ks
  induction ks with
  | nil => intro st₁ st₂ hc hp hg; exact ⟨hc, hp, hg⟩
  | cons K rest ih =>
    intro st₁ st₂ hc hp hg
    obtain ⟨hc', hp', hg'⟩ := parity_step_keys S₁ r₁ S₂ r₂ st₁ st₂ K hc hp hg
    exact ih (parity_step S₁ r₁ st₁ K) (parity_step S₂ r₂ st₂ K) hc' hp' hg'

/-- The spread step only inspects key membership and disclosure, so entries
with the same key and the same disclosure flag evolve key-equal states
key-equally. -/
theorem spread_step_keys (st₁ st₂ : SolveSt)
    (p₁ p₂ : (ℚ × ℚ × Side) × Option ℚ)
    (hk : p₁.1 = p₂.1) (hs : p₁.2.isSome = p₂.2.isSome)
    (hc : dkeys st₁.known_calls = dkeys st₂.known_calls)
    (hp : dkeys st₁.known_puts = dkeys st₂.known_puts)
    (hg : st₁.progress_made = st₂.progress_made) :
    dkeys (spread_step st₁ p₁).known_calls =
      dkeys (spread_step st₂ p₂).known_calls ∧
    dkeys (spread_step st₁ p₁).known_puts =
      dkeys (spread_step st₂ p₂).known_puts ∧
    (spread_step st₁ p₁).progress_made = (spread_step st₂ p₂).progress_made := by
  rcases p₁ with ⟨⟨k1, k2, side⟩, val₁⟩
  rcases p₂ with ⟨⟨k1', k2', side'⟩, val₂⟩
  obtain ⟨rfl, rfl, rfl⟩ : k1 = k1' ∧ k2 = k2' ∧ side = side' := by
    simpa using hk
  rcases val₁ with _ | v₁ <;> rcases val₂ with _ | v₂ <;> simp at hs
  · cases side <;> (simp only [spread_step]; exact ⟨hc, hp, hg⟩)
  · cases side
    · simp only [spread_step]
      rw [dmem_congr hc k1, dmem_congr hc k2]
      split_ifs
      · exact ⟨dkeys_dinsert_congr hc k2 _ _, hp, rfl⟩
      · exact ⟨dkeys_dinsert_congr hc k1 _ _, hp, rfl⟩
      · exact ⟨hc, hp, hg⟩
    · simp only [spread_step]
      rw [dmem_congr hp k1, dmem_congr hp k2]
      split_ifs
      · exact ⟨hc, dkeys_dinsert_congr hp k2 _ _, rfl⟩
      · exact ⟨hc, dkeys_dinsert_congr hp k1 _ _, rfl⟩
      · exact ⟨hc, hp, hg⟩

/-- The spread phase preserves key-list agreement across puzzles with the
same spread disclosure pattern. -/
theorem spread_fold_keys :
    ∀ (l₁ l₂ : List ((ℚ × ℚ × Side) × Option ℚ)),
      l₁.map (fun p => (p.1, p.2.isSome)) = l₂.map (fun p => (p.1, p.2.isSome)) →
      ∀ (st₁ st₂ : SolveSt),
        dkeys st₁.known_calls = dkeys st₂.known_calls →
        dkeys st₁.known_puts = dkeys st₂.known_puts →
        st₁.progress_made = st₂.progress_made →
        dkeys (l₁.foldl spread_step st₁).known_calls =
          dkeys (l₂.foldl spread_step st₂).known_calls ∧
        dkeys (l₁.foldl spread_step st₁).known_puts =
          dkeys (l₂.foldl spread_step st₂).known_puts ∧
        (l₁.foldl spread_step st₁).progress_made =
          (l₂.foldl spread_step st₂).progress_made := by
  intro l₁
  induction l₁ with
  | nil =>
    intro l₂ hmap st₁ st₂ hc hp hg
    rw [List.eq_nil_of_map_eq_nil hmap.symm]
    exact ⟨hc, hp, hg⟩
  | cons p₁ t₁ ih =>
    intro l₂ hmap st₁ st₂ hc hp hg
    cases l₂ with
    | nil => simp at hmap
    | cons p₂ t₂ =>
      simp only [List.map_cons, List.cons.injEq, Prod.mk.injEq] at hmap
      obtain ⟨⟨hk, hs⟩, hrest⟩ := hmap
      obtain ⟨hc', hp', hg'⟩ := spread_step_keys st₁ st₂ p₁ p₂ hk hs hc hp hg
      exact ih t₂ hrest (spread_step st₁ p₁) (spread_step st₂ p₂) hc' hp' hg'

/-- The seeding step writes the entry's key whenever the entry is disclosed,
so entries with the same key and disclosure flag preserve key agreement. -/
theorem seed_step_keys (st₁ st₂ : SolveSt) (p₁ p₂ : (ℚ × Side) × Option ℚ)
    (hk : p₁.1 = p₂.1) (hs : p₁.2.isSome = p₂.2.isSome)
    (hc : dkeys st₁.known_calls = dkeys st₂.known_calls)
    (hp : dkeys st₁.known_puts = dkeys st₂.known_puts)
    (hg : st₁.progress_made = st₂.progress_made) :
    dkeys (seed_step st₁ p₁).known_calls = dkeys (seed_step st₂ p₂).known_calls ∧
    dkeys (seed_step st₁ p₁).known_puts = dkeys (seed_step st₂ p₂).known_puts ∧
    (seed_step st₁ p₁).progress_made = (seed_step st₂ p₂).progress_made := by
  rcases p₁ with ⟨⟨K, side⟩, val₁⟩
  rcases p₂ with ⟨⟨K', side'⟩, val₂⟩
  obtain ⟨rfl, rfl⟩ : K = K' ∧ side = side' := by simpa using hk
  rcases val₁ with _ | v₁ <;> rcases val₂ with _ | v₂ <;> simp at hs
  · cases side <;> (simp only [seed_step]; exact ⟨hc, hp, hg⟩)
  · cases side
    · simp only [seed_step]
      exact ⟨dkeys_dinsert_congr hc K _ _, hp, hg⟩
    · simp only [seed_step]
      exact ⟨hc, dkeys_dinsert_congr hp K _ _, hg⟩

/-- The seeding fold preserves key-list agreement across puzzles with the
same explicit-price disclosure pattern. -/
theorem seed_fold_keys :
    ∀ (l₁ l₂ : List ((ℚ × Side) × Option ℚ)),
      l₁.map (fun p => (p.1, p.2.isSome)) = l₂.map (fun p => (p.1, p.2.isSome)) →
      ∀ (st₁ st₂ : SolveSt),
        dkeys st₁.known_calls = dkeys st₂.known_calls →
        dkeys st₁.known_puts = dkeys st₂.known_puts →
        st₁.progress_made = st₂.progress_made →
        dkeys (l₁.foldl seed_step st₁).known_calls =
          dkeys (l₂.foldl seed_step st₂).known_calls ∧
        dkeys (l₁.foldl seed_step st₁).known_puts =
          dkeys (l₂.foldl seed_step st₂).known_puts ∧
        (l₁.foldl seed_step st₁).progress_made =
          (l₂.foldl seed_step st₂).progress_made := by
  intro l₁
  induction l₁ with
  | nil =>
    intro l₂ hmap st₁ st₂ hc hp hg
    rw [List.eq_nil_of_map_eq_nil hmap.symm]
    exact ⟨hc, hp, hg⟩
  | cons p₁ t₁ ih =>
    intro l₂ hmap st₁ st₂ hc hp hg
    cases l₂ with
    | nil => simp at hmap
    | cons p₂ t₂ =>
      simp only [List.map_cons, List.cons.injEq, Prod.mk.injEq] at hmap
      obtain ⟨⟨hk, hs⟩, hrest⟩ := hmap
      obtain ⟨hc', hp', hg'⟩ := seed_step_keys st₁ st₂ p₁ p₂ hk hs hc hp hg
      exact ih t₂ hrest (seed_step st₁ p₁) (seed_step st₂ p₂) hc' hp' hg'

/-- One solver round preserves key-list agreement across puzzles with the
same disclosure pattern, for any market parameters. -/
theorem one_iteration_keys (e₁ e₂ : ExerciseData) (S₁ r₁ S₂ r₂ : ℚ)
    (hpat : disclosure_pattern e₁ = disclosure_pattern e₂)
    (st₁ st₂ : SolveSt)
    (hc : dkeys st₁.known_calls = dkeys st₂.known_calls)
    (hp : dkeys st₁.known_puts = dkeys st₂.known_puts) :
    dkeys (one_iteration e₁ S₁ r₁ st₁).known_calls =
      dkeys (one_iteration e₂ S₂ r₂ st₂).known_calls ∧
    dkeys (one_iteration e₁ S₁ r₁ st₁).known_puts =
      dkeys (one_iteration e₂ S₂ r₂ st₂).known_puts ∧
    (one_iteration e₁ S₁ r₁ st₁).progress_made =
      (one_iteration e₂ S₂ r₂ st₂).progress_made := by
  obtain ⟨hep, hsp, hstr⟩ : ep_pattern e₁ = ep_pattern e₂ ∧
      sp_pattern e₁ = sp_pattern e₂ ∧ e₁.strikes = e₂.strikes := by
    simpa [disclosure_pattern] using hpat
  unfold one_iteration parity_pass spread_pass
  rw [hstr]
  obtain ⟨hc', hp', hg'⟩ := parity_fold_keys S₁ r₁ S₂ r₂ e₂.strikes
    { st₁ with progress_made := false } { st₂ with progress_made := false }
    hc hp rfl
  exact spread_fold_keys e₁.spreads e₂.spreads hsp _ _ hc' hp' hg'

/-- The successor unfolding of the bounded fixpoint loop. -/
theorem solve_loop_succ (e : ExerciseData) (S r_c : ℚ) (fuel : Nat) (st : SolveSt) :
    solve_loop e S r_c (fuel + 1) st =
      (if (one_iteration e S r_c st).progress_made then
        solve_loop e S r_c fuel (one_iteration e S r_c st)
      else one_iteration e S r_c st) := rfl

/-- The bounded fixpoint loop preserves key-list agreement. -/
theorem solve_loop_keys (e₁ e₂ : ExerciseData) (S₁ r₁ S₂ r₂ : ℚ)
    (hpat : disclosure_pattern e₁ = disclosure_pattern e₂) :
    ∀ (fuel : Nat) (st₁ st₂ : SolveSt),
      dkeys st₁.known_calls = dkeys st₂.known_calls →
      dkeys st₁.known_puts = dkeys st₂.known_puts →
      dkeys (solve_loop e₁ S₁ r₁ fuel st₁).known_calls =
        dkeys (solve_loop e₂ S₂ r₂ fuel st₂).known_calls ∧
      dkeys (solve_loop e₁ S₁ r₁ fuel st₁).known_puts =
        dkeys (solve_loop e₂ S₂ r₂ fuel st₂).known_puts := by
  intro fuel
  induction fuel with
  | zero => intro st₁ st₂ hc hp; exact ⟨hc, hp⟩
  | succ f ih =>
    intro st₁ st₂ hc hp
    obtain ⟨hc', hp', hg'⟩ :=
      one_iteration_keys e₁ e₂ S₁ r₁ S₂ r₂ hpat st₁ st₂ hc hp
    rw [solve_loop_succ, solve_loop_succ, hg']
    by_cases hprog : (one_iteration e₂ S₂ r₂ st₂).progress_made = true
    · rw [if_pos hprog, if_pos hprog]
      exact ih _ _ hc' hp'
    · rw [if_neg hprog, if_neg hprog]
      exact ⟨hc', hp'⟩

/-- The solvability verdict of `verify_exercise_solvable` depends only on the
disclosure pattern, not on any numeric value or parameter. -/
theorem verify_pattern_congr (e₁ e₂ : ExerciseData) (S₁ r₁ S₂ r₂ : ℚ)
    (hpat : disclosure_pattern e₁ = disclosure_pattern e₂) :
    verify_exercise_solvable e₁ S₁ r₁ = verify_exercise_solvable e₂ S₂ r₂ := by
  obtain ⟨hep, hsp, hstr⟩ : ep_pattern e₁ = ep_pattern e₂ ∧
      sp_pattern e₁ = sp_pattern e₂ ∧ e₁.strikes = e₂.strikes := by
    simpa [disclosure_pattern] using hpat
  have hseed := seed_fold_keys e₁.explicit_prices e₂.explicit_prices hep
    ⟨[], [], false⟩ ⟨[], [], false⟩ rfl rfl rfl
  obtain ⟨hc, hp⟩ := solve_loop_keys e₁ e₂ S₁ r₁ S₂ r₂ hpat 50
    (seed_state e₁) (seed_state e₂) hseed.1 hseed.2.1
  simp only [verify_exercise_solvable, solve_state] at hc hp ⊢
  rw [hstr]
  have hfilter : List.filter (fun K =>
        dmem (solve_loop e₁ S₁ r₁ 50 (seed_state e₁)).known_calls K ||
        dmem (solve_loop e₁ S₁ r₁ 50 (seed_state e₁)).known_puts K) e₂.strikes.dedup =
      List.filter (fun K =>
        dmem (solve_loop e₂ S₂ r₂ 50 (seed_state e₂)).known_calls K ||
        dmem (solve_loop e₂ S₂ r₂ 50 (seed_state e₂)).known_puts K) e₂.strikes.dedup :=
    List.filter_congr (fun K _ => by rw [dmem_congr hc K, dmem_congr hp K])
  rw [hfilter]

/-- C9: the boolean result of `verify_exercise_solvable` depends only on the
disclosure pattern — which explicit prices and spreads are non-`None`, and the
strikes list — and not on the numeric values of `stock_price`, `r_c`, the
disclosed prices or the disclosed spreads.  This justifies
`add_fallback_hints` probing solvability with the dummy parameters `0, 0`. -/
theorem C9_verdict_depends_only_on_pattern (e₁ e₂ : ExerciseData)
    (S₁ r₁ S₂ r₂ : ℚ)
    (hpat : disclosure_pattern e₁ = disclosure_pattern e₂) :
    verify_exercise_solvable e₁ S₁ r₁ = verify_exercise_solvable e₂ S₂ r₂ :=
  verify_pattern_congr e₁ e₂ S₁ r₁ S₂ r₂ hpat

/-- C9 witness: `exA` and `exB` share a disclosure pattern but differ in every
numeric value; their verdicts agree across different market parameters. -/
theorem C9_verdict_depends_only_on_pattern_witness :
    disclosure_pattern exA = disclosure_pattern exB ∧
    verify_exercise_solvable exA 10 1 = verify_exercise_solvable exB 20 2 :=
  ⟨by decide, C9_verdict_depends_only_on_pattern exA exB 10 1 20 2 (by decide)⟩

/-- Pass 1 never touches the explicit prices or the strikes. -/
theorem afh_pass1_explicit (coins : Nat → Bool) :
    ∀ (ps : List (LadderRow × LadderRow)) (e : ExerciseData) (cnt : Nat),
      (afh_pass1 coins ps e cnt).1.explicit_prices = e.explicit_prices ∧
      (afh_pass1 coins ps e cnt).1.strikes = e.strikes := by
  intro ps
  induction ps with
  | nil => intro e cnt; exact ⟨rfl, rfl⟩
  | cons p rest ih =>
    intro e cnt
    simp only [afh_pass1]
    split
    · split <;> exact ih _ _
    · exact ih e cnt

/-- Pass 1 never removes or changes a disclosed spread: it writes only at
pair keys whose call and put spreads are both undisclosed. -/
theorem afh_pass1_sget (coins : Nat → Bool) :
    ∀ (ps : List (LadderRow × LadderRow)) (e : ExerciseData) (cnt : Nat)
      (k : ℚ × ℚ × Side) (v : ℚ), sget e k = some v →
      sget (afh_pass1 coins ps e cnt).1 k = some v := by
  intro ps
  induction ps with
  | nil => intro e cnt k v h; exact h
  | cons p rest ih =>
    intro e cnt k v h
    simp only [afh_pass1]
    split
    · rename_i hboth
      simp only [Bool.and_eq_true, Bool.not_eq_true'] at hboth
      split
      · apply ih
        by_cases hk : k = (p.1.strike, p.2.strike, Side.call)
        · exfalso; rw [hk] at h; rw [h] at hboth; simp at hboth
        · show (dfind (dinsert e.spreads _ _) k).join = some v
          rw [dfind_dinsert_ne e.spreads _ k _ hk]
          exact h
      · apply ih
        by_cases hk : k = (p.1.strike, p.2.strike, Side.put)
        · exfalso; rw [hk] at h; rw [h] at hboth; simp at hboth
        · show (dfind (dinsert e.spreads _ _) k).join = some v
          rw [dfind_dinsert_ne e.spreads _ k _ hk]
          exact h
    · exact ih e cnt k v h

/-- Pass 2 never touches the spreads or the strikes. -/
theorem afh_pass2_spreads (coins : Nat → Bool) :
    ∀ (rows : List LadderRow) (e : ExerciseData) (cnt : Nat),
      (afh_pass2 coins rows e cnt).spreads = e.spreads ∧
      (afh_pass2 coins rows e cnt).strikes = e.strikes := by
  intro rows
  induction rows with
  | nil => intro e cnt; exact ⟨rfl, rfl⟩
  | cons row rest ih =>
    intro e cnt
    simp only [afh_pass2]
    split
    · exact ih e cnt
    · split <;> exact ⟨rfl, rfl⟩

/-- Pass 2 never removes or changes a disclosed explicit price: it writes only
at a strike with both sides undisclosed. -/
theorem afh_pass2_epget (coins : Nat → Bool) :
    ∀ (rows : List LadderRow) (e : ExerciseData) (cnt : Nat)
      (k : ℚ × Side) (v : ℚ), epget e k = some v →
      epget (afh_pass2 coins rows e cnt) k = some v := by
  intro rows
  induction rows with
  | nil => intro e cnt k v h; exact h
  | cons row rest ih =>
    intro e cnt k v h
    simp only [afh_pass2]
    split
    · exact ih e cnt k v h
    · rename_i hnone
      simp only [Bool.or_eq_true, not_or, Bool.not_eq_true] at hnone
      split
      · by_cases hk : k = (row.strike, Side.call)
        · exfalso; rw [hk] at h; rw [h] at hnone; simp at hnone
        · show (dfind (dinsert e.explicit_prices _ _) k).join = some v
          rw [dfind_dinsert_ne e.explicit_prices _ k _ hk]
          exact h
      · by_cases hk : k = (row.strike, Side.put)
        · exfalso; rw [hk] at h; rw [h] at hnone; simp at hnone
        · show (dfind (dinsert e.explicit_prices _ _) k).join = some v
          rw [dfind_dinsert_ne e.explicit_prices _ k _ hk]
          exact h

/-- C3: `add_fallback_hints` never removes or changes an existing disclosure —
every disclosed explicit price and every disclosed spread of the input puzzle
is present with the same value in the output — and on an already-solvable
puzzle (for any parameters, by value-independence of the verdict) it returns
the puzzle unchanged. -/
theorem C3_repair_monotone (l : List LadderRow) (e : ExerciseData)
    (coins : Nat → Bool) :
    (∀ S r_c : ℚ, verify_exercise_solvable e S r_c = true →
      add_fallback_hints l e coins = e) ∧
    (∀ (k : ℚ × Side) (v : ℚ), epget e k = some v →
      epget (add_fallback_hints l e coins) k = some v) ∧
    (∀ (k : ℚ × ℚ × Side) (v : ℚ), sget e k = some v →
      sget (add_fallback_hints l e coins) k = some v) := by
  by_cases h0 : verify_exercise_solvable e 0 0 = true
  · have heq : add_fallback_hints l e coins = e := by
      unfold add_fallback_hints
      rw [if_pos h0]
    exact ⟨fun _ _ _ => heq, fun k v hv => by rw [heq]; exact hv,
      fun k v hv => by rw [heq]; exact hv⟩
  · have hres : add_fallback_hints l e coins =
        afh_pass2 coins l (afh_pass1 coins (adjacent_pairs l) e 0).1
          (afh_pass1 coins (adjacent_pairs l) e 0).2 := by
      unfold add_fallback_hints
      rw [if_neg h0]
    refine ⟨fun S r_c hS => absurd
      ((verify_pattern_congr e e 0 0 S r_c rfl).trans hS) h0, ?_, ?_⟩
    · intro k v hv
      rw [hres]
      apply afh_pass2_epget
      show (dfind (afh_pass1 coins (adjacent_pairs l) e 0).1.explicit_prices k).join
        = some v
      rw [(afh_pass1_explicit coins (adjacent_pairs l) e 0).1]
      exact hv
    · intro k v hv
      rw [hres]
      show (dfind (afh_pass2 coins l (afh_pass1 coins (adjacent_pairs l) e 0).1
        (afh_pass1 coins (adjacent_pairs l) e 0).2).spreads k).join = some v
      rw [(afh_pass2_spreads coins l (afh_pass1 coins (adjacent_pairs l) e 0).1
        (afh_pass1 coins (adjacent_pairs l) e 0).2).1]
      exact afh_pass1_sget coins (adjacent_pairs l) e 0 k v hv

/-- C3 witness: on the already-solvable `exA` the repairer is the identity,
and on the unsolvable `exC4` the disclosed call at strike `10` survives the
repair with the same value. -/
theorem C3_repair_monotone_witness :
    (verify_exercise_solvable exA 0 0 = true ∧
      add_fallback_hints ladderC4 exA coins_true = exA) ∧
    (epget exC4 (10, Side.call) = some 5 ∧
      epget (add_fallback_hints ladderC4 exC4 coins_true) (10, Side.call) = some 5) :=
  ⟨⟨by decide, (C3_repair_monotone ladderC4 exA coins_true).1 0 0 (by decide)⟩,
   ⟨by decide,
    (C3_repair_monotone ladderC4 exC4 coins_true).2.1 (10, Side.call) 5 (by decide)⟩⟩

/-- Seeding skips an undisclosed entry. -/
theorem seed_step_none (st : SolveSt) (k : ℚ × Side) :
    seed_step st (k, none) = st := by
  rcases k with ⟨K, side⟩
  cases side <;> rfl

/-- The spread phase skips an undisclosed entry. -/
theorem spread_step_none (st : SolveSt) (k : ℚ × ℚ × Side) :
    spread_step st (k, none) = st := by
  rcases k with ⟨k1, k2, side⟩
  cases side <;> rfl

/-- Seeding a puzzle is seeding its disclosed entries. -/
theorem seed_fold_filter :
    ∀ (l : List ((ℚ × Side) × Option ℚ)) (st : SolveSt),
      l.foldl seed_step st = (l.filter (fun p => p.2.isSome)).foldl seed_step st := by
  intro l
  induction l with
  | nil => intro st; rfl
  | cons p t ih =>
    intro st
    rcases p with ⟨k, val⟩
    rcases val with _ | v
    · rw [List.foldl_cons, seed_step_none, ih st]
      simp [List.filter_cons]
    · rw [List.foldl_cons, ih (seed_step st (k, some v))]
      simp [List.filter_cons, List.foldl_cons]

/-- A spread phase over undisclosed spreads is the identity. -/
theorem spread_fold_none :
    ∀ (l : List ((ℚ × ℚ × Side) × Option ℚ)) (st : SolveSt),
      (∀ p ∈ l, p.2 = none) → l.foldl spread_step st = st := by
  intro l
  induction l with
  | nil => intro st _; rfl
  | cons p t ih =>
    intro st hall
    rcases p with ⟨k, val⟩
    have hv : val = none := hall (k, val) (List.mem_cons_self _ _)
    subst hv
    rw [List.foldl_cons, spread_step_none]
    exact ih st (fun q hq => hall q (List.mem_cons_of_mem _ hq))

/-- A parity step at a strike whose call and put membership agree is a skip. -/
theorem parity_step_eq (S r_c : ℚ) (st : SolveSt) (K : ℚ)
    (h : dmem st.known_calls K = dmem st.known_puts K) :
    parity_step S r_c st K = st := by
  unfold parity_step
  rw [h]
  cases hm : dmem st.known_puts K <;> simp

/-- A parity phase over strikes with agreeing membership is the identity. -/
theorem parity_fold_eq (S r_c : ℚ) :
    ∀ (L : List ℚ) (st : SolveSt),
      (∀ K ∈ L, dmem st.known_calls K = dmem st.known_puts K) →
      L.foldl (parity_step S r_c) st = st := by
  intro L
  induction L with
  | nil => intro st _; rfl
  | cons K t ih =>
    intro st hall
    rw [List.foldl_cons, parity_step_eq S r_c st K (hall K (List.mem_cons_self _ _))]
    exact ih st (fun q hq => hall q (List.mem_cons_of_mem _ hq))

/-- Membership in a one-entry dict. -/
theorem dmem_single (a K v : ℚ) : dmem [(a, v)] K = decide (a = K) := by
  by_cases h : a = K <;> simp [dmem, dfind, h]

/-- C6: a puzzle that disclosed exactly one explicit price — the anchor call,
at one of its strikes — and no spreads is reported solvable by
`verify_exercise_solvable` exactly when it has a single strike. -/
theorem C6_anchor_only_solvable_iff_single_strike (e : ExerciseData)
    (a v S r_c : ℚ) (h1 : e.strikes.Nodup)
    (h2 : e.explicit_prices.filter (fun p => p.2.isSome) = [((a, Side.call), some v)])
    (h3 : ∀ p ∈ e.spreads, p.2 = none) (h4 : a ∈ e.strikes) :
    (verify_exercise_solvable e S r_c = true ↔ e.strikes.length = 1) := by
  have hseed : seed_state e = ⟨[(a, v)], [], false⟩ := by
    unfold seed_state
    rw [seed_fold_filter, h2]
    rfl
  obtain ⟨l1, l2, hsplit⟩ := List.append_of_mem h4
  have hnodup := h1
  rw [hsplit] at hnodup
  have ha1 : a ∉ l1 := fun hmem =>
    (List.disjoint_of_nodup_append hnodup) hmem (List.mem_cons_self a l2)
  have ha2 : a ∉ l2 := (List.nodup_cons.mp (List.Nodup.of_append_right hnodup)).1
  have hpar : parity_pass e S r_c ⟨[(a, v)], [], false⟩ =
      ⟨[(a, v)], [(a, round2 (v - S + a - r_c))], true⟩ := by
    unfold parity_pass
    rw [hsplit, List.foldl_append]
    rw [parity_fold_eq S r_c l1 _ (fun K hK => by
      have hne : a ≠ K := fun hh => ha1 (hh ▸ hK)
      simp [dmem_single, hne, dmem, dfind])]
    rw [List.foldl_cons]
    have hstep : parity_step S r_c ⟨[(a, v)], [], false⟩ a =
        ⟨[(a, v)], [(a, round2 (v - S + a - r_c))], true⟩ := by
      unfold parity_step
      simp [dmem, dfind, dinsert]
    rw [hstep]
    exact parity_fold_eq S r_c l2 _ (fun K hK => by rw [dmem_single, dmem_single])
  have hone : one_iteration e S r_c ⟨[(a, v)], [], false⟩ =
      ⟨[(a, v)], [(a, round2 (v - S + a - r_c))], true⟩ := by
    unfold one_iteration spread_pass
    show e.spreads.foldl spread_step (parity_pass e S r_c ⟨[(a, v)], [], false⟩) = _
    rw [hpar]
    exact spread_fold_none e.spreads _ h3
  have htwo : one_iteration e S r_c
      ⟨[(a, v)], [(a, round2 (v - S + a - r_c))], true⟩ =
      ⟨[(a, v)], [(a, round2 (v - S + a - r_c))], false⟩ := by
    unfold one_iteration parity_pass spread_pass
    show e.spreads.foldl spread_step (e.strikes.foldl (parity_step S r_c)
      ⟨[(a, v)], [(a, round2 (v - S + a - r_c))], false⟩) = _
    rw [parity_fold_eq S r_c e.strikes _ (fun K hK => by rw [dmem_single, dmem_single])]
    exact spread_fold_none e.spreads _ h3
  have hstate : solve_state e S r_c =
      ⟨[(a, v)], [(a, round2 (v - S + a - r_c))], false⟩ := by
    unfold solve_state
    rw [hseed]
    rw [show (50 : Nat) = 49 + 1 from rfl, solve_loop_succ, hone]
    rw [if_pos (show (⟨[(a, v)], [(a, round2 (v - S + a - r_c))], true⟩ :
      SolveSt).progress_made = true from rfl)]
    rw [show (49 : Nat) = 48 + 1 from rfl, solve_loop_succ, htwo]
    rw [if_neg (show ¬ ((⟨[(a, v)], [(a, round2 (v - S + a - r_c))], false⟩ :
      SolveSt).progress_made = true) by simp)]
  have hverdict : verify_exercise_solvable e S r_c =
      ((e.strikes.dedup.filter (fun K => dmem [(a, v)] K ||
        dmem [(a, round2 (v - S + a - r_c))] K)).length == e.strikes.dedup.length) := by
    simp only [verify_exercise_solvable]
    rw [hstate]
  rw [hverdict, List.dedup_eq_self.mpr h1]
  constructor
  · intro htrue
    have hlen : (e.strikes.filter (fun K => dmem [(a, v)] K ||
        dmem [(a, round2 (v - S + a - r_c))] K)).length = e.strikes.length :=
      beq_iff_eq.mp htrue
    have heq := List.Sublist.eq_of_length (List.filter_sublist e.strikes) hlen
    have hall : ∀ K ∈ e.strikes, a = K := by
      intro K hK
      have hmem : K ∈ e.strikes.filter (fun K => dmem [(a, v)] K ||
          dmem [(a, round2 (v - S + a - r_c))] K) := by rw [heq]; exact hK
      have hpK := List.of_mem_filter hmem
      rw [dmem_single, dmem_single, Bool.or_self] at hpK
      exact of_decide_eq_true hpK
    cases hstk : e.strikes with
    | nil => rw [hstk] at h4; cases h4
    | cons b t =>
      cases t with
      | nil => rfl
      | cons c t2 =>
        exfalso
        rw [hstk] at hall h1
        have hb : a = b := hall b (by simp)
        have hc : a = c := hall c (by simp)
        have : b ∉ c :: t2 := (List.nodup_cons.mp h1).1
        exact this (hb ▸ hc ▸ List.mem_cons_self c t2)
  · intro hlen
    obtain ⟨b, hb⟩ := List.length_eq_one.mp hlen
    rw [hb] at h4
    have hab : b = a := by
      rcases List.mem_singleton.mp h4 with rfl
      rfl
    rw [hb, hab]
    simp [List.filter_cons, dmem_single]

/-- C6 witness: the two-strike instance `exC6` (one anchor call, no spreads)
is reported unsolvable. -/
theorem C6_anchor_only_witness :
    exC6.strikes.Nodup ∧
    exC6.explicit_prices.filter (fun p => p.2.isSome) = [((10, Side.call), some 5)] ∧
    (∀ p ∈ exC6.spreads, p.2 = none) ∧ (10 : ℚ) ∈ exC6.strikes ∧
    (verify_exercise_solvable exC6 3 (1/2) = true ↔ exC6.strikes.length = 1) :=
  ⟨by decide, by decide, by decide, by decide,
   C6_anchor_only_solvable_iff_single_strike exC6 10 5 3 (1/2)
     (by decide) (by decide) (by decide) (by decide)⟩

/-- A fresh write appends its entry. -/
theorem dinsert_append {α β : Type} [DecidableEq α] :
    ∀ (d : List (α × β)) (k : α) (v : β), dmem d k = false →
      dinsert d k v = d ++ [(k, v)] := by
  intro d
  induction d with
  | nil => intro k v _; rfl
  | cons p rest ih =>
    intro k v h
    simp only [dmem, dfind] at h
    by_cases hp : p.1 = k
    · rw [if_pos hp] at h; cases h
    · rw [if_neg hp] at h
      simp only [dinsert]
      rw [if_neg hp, List.cons_append, ih k v h]

/-- A write at a different key walks past the head entry. -/
theorem dinsert_cons_ne {α β : Type} [DecidableEq α] (x : α × β)
    (l : List (α × β)) (k : α) (v : β) (h : x.1 ≠ k) :
    dinsert (x :: l) k v = x :: dinsert l k v := by
  rcases x with ⟨a, w⟩
  simp only [dinsert]
  rw [if_neg h]

/-- A fold of writes whose keys all avoid the head entry commutes with the
head entry. -/
theorem foldl_dinsert_cons {γ α β : Type} [DecidableEq α]
    (f : γ → α) (g : γ → β) :
    ∀ (l : List γ) (x : α × β) (acc : List (α × β)),
      (∀ p ∈ l, f p ≠ x.1) →
      l.foldl (fun acc p => dinsert acc (f p) (g p)) (x :: acc) =
        x :: l.foldl (fun acc p => dinsert acc (f p) (g p)) acc := by
  intro l
  induction l with
  | nil => intro x acc _; rfl
  | cons q t ih =>
    intro x acc hall
    rw [List.foldl_cons, List.foldl_cons]
    rw [dinsert_cons_ne x acc (f q) (g q)
      (fun hh => hall q (List.mem_cons_self _ _) hh.symm)]
    exact ih x _ (fun p hp => hall p (List.mem_cons_of_mem _ hp))

/-- The first components of the adjacent pairs are the strikes without the
last one. -/
theorem adjacent_pairs_firsts :
    ∀ (l : List LadderRow),
      (adjacent_pairs l).map (fun p => p.1.strike) = (l.map (·.strike)).dropLast := by
  intro l
  match l with
  | [] => rfl
  | [r] => rfl
  | r1 :: r2 :: rest =>
    have ih := adjacent_pairs_firsts (r2 :: rest)
    simp only [adjacent_pairs, List.map_cons] at ih ⊢
    rw [ih]
    rfl

/-- Membership in an appended dict. -/
theorem dmem_append {α β : Type} [DecidableEq α] (d2 : List (α × β)) (k : α) :
    ∀ d1 : List (α × β), dmem (d1 ++ d2) k = (dmem d1 k || dmem d2 k) := by
  intro d1
  induction d1 with
  | nil => simp [dmem, dfind]
  | cons p rest ih =>
    by_cases h : p.1 = k
    · simp [dmem, dfind, h]
    · simp only [List.cons_append, dmem, dfind, if_neg h] at ih ⊢
      exact ih

/-- The skeleton-building fold appends the interleaved `None` entries for all
adjacent pairs, provided pair keys are fresh and pairwise distinct. -/
theorem init_fold_eq :
    ∀ (ps : List (LadderRow × LadderRow)) (acc : List ((ℚ × ℚ × Side) × Option ℚ)),
      (ps.map (fun p => p.1.strike)).Nodup →
      (∀ p ∈ ps, ∀ side : Side, dmem acc (p.1.strike, p.2.strike, side) = false) →
      ps.foldl (fun l p =>
        dinsert (dinsert l (p.1.strike, p.2.strike, Side.call) none)
          (p.1.strike, p.2.strike, Side.put) none) acc = acc ++ init_entries ps := by
  intro ps
  induction ps with
  | nil => intro acc _ _; simp [init_entries]
  | cons p rest ih =>
    intro acc hnd hfresh
    rw [List.foldl_cons]
    have hc := hfresh p (List.mem_cons_self _ _) Side.call
    have hp := hfresh p (List.mem_cons_self _ _) Side.put
    rw [dinsert_append acc _ none hc]
    have hstep : dmem (acc ++ [((p.1.strike, p.2.strike, Side.call), none)])
        (p.1.strike, p.2.strike, Side.put) = false := by
      rw [dmem_append]
      rw [hp]
      simp [dmem, dfind]
    rw [dinsert_append _ _ none hstep, List.append_assoc]
    rw [ih (acc ++ ([((p.1.strike, p.2.strike, Side.call), none)] ++
      [((p.1.strike, p.2.strike, Side.put), none)]))
      (List.Nodup.of_cons hnd) ?_]
    · rw [List.append_assoc]
      rfl
    · intro q hq side
      rw [dmem_append, hfresh q (List.mem_cons_of_mem _ hq) side]
      have hqp : q.1.strike ≠ p.1.strike := by
        intro hh
        refine (List.nodup_cons.mp hnd).1 ?_
        show p.1.strike ∈ List.map (fun x => x.1.strike) rest
        rw [← hh]
        exact List.mem_map_of_mem (fun x => x.1.strike) hq
      have h1 : ((p.1.strike, p.2.strike, Side.call) : ℚ × ℚ × Side) ≠
          (q.1.strike, q.2.strike, side) :=
        fun hh => hqp (congrArg Prod.fst hh).symm
      have h2 : ((p.1.strike, p.2.strike, Side.put) : ℚ × ℚ × Side) ≠
          (q.1.strike, q.2.strike, side) :=
        fun hh => hqp (congrArg Prod.fst hh).symm
      simp [dmem, dfind, h1, h2]

/-- Writing at the head key replaces the head entry. -/
theorem dinsert_cons_self {α β : Type} [DecidableEq α] (k : α) (w v : β)
    (l : List (α × β)) : dinsert ((k, w) :: l) k v = (k, v) :: l := by
  simp [dinsert]

/-- The call-overwrite fold walks past an entry whose key it never writes. -/
theorem foldl_overwrite_call_cons (spreads : SpreadSet) :
    ∀ (rest : List (LadderRow × LadderRow)) (x : (ℚ × ℚ × Side) × Option ℚ)
      (acc : List ((ℚ × ℚ × Side) × Option ℚ)),
      (∀ q ∈ rest, ((q.1.strike, q.2.strike, Side.call) : ℚ × ℚ × Side) ≠ x.1) →
      rest.foldl (fun l p => dinsert l (p.1.strike, p.2.strike, Side.call)
          (dfind spreads.call_spreads (p.1.strike, p.2.strike))) (x :: acc) =
        x :: rest.foldl (fun l p => dinsert l (p.1.strike, p.2.strike, Side.call)
          (dfind spreads.call_spreads (p.1.strike, p.2.strike))) acc := by
  intro rest
  induction rest with
  | nil => intro x acc _; rfl
  | cons q t ih =>
    intro x acc hall
    rw [List.foldl_cons, List.foldl_cons]
    rw [dinsert_cons_ne x acc _ _
      (fun hh => hall q (List.mem_cons_self _ _) hh.symm)]
    exact ih x _ (fun r hr => hall r (List.mem_cons_of_mem _ hr))

/-- The put-overwrite fold walks past an entry whose key it never writes. -/
theorem foldl_overwrite_put_cons (spreads : SpreadSet) :
    ∀ (rest : List (LadderRow × LadderRow)) (x : (ℚ × ℚ × Side) × Option ℚ)
      (acc : List ((ℚ × ℚ × Side) × Option ℚ)),
      (∀ q ∈ rest, ((q.1.strike, q.2.strike, Side.put) : ℚ × ℚ × Side) ≠ x.1) →
      rest.foldl (fun l p => dinsert l (p.1.strike, p.2.strike, Side.put)
          (dfind spreads.put_spreads (p.1.strike, p.2.strike))) (x :: acc) =
        x :: rest.foldl (fun l p => dinsert l (p.1.strike, p.2.strike, Side.put)
          (dfind spreads.put_spreads (p.1.strike, p.2.strike))) acc := by
  intro rest
  induction rest with
  | nil => intro x acc _; rfl
  | cons q t ih =>
    intro x acc hall
    rw [List.foldl_cons, List.foldl_cons]
    rw [dinsert_cons_ne x acc _ _
      (fun hh => hall q (List.mem_cons_self _ _) hh.symm)]
    exact ih x _ (fun r hr => hall r (List.mem_cons_of_mem _ hr))

/-- Overwriting the call entries of the skeleton with the looked-up call
spreads yields the disclosed call chain. -/
theorem overwrite_call_fold (spreads : SpreadSet) :
    ∀ ps : List (LadderRow × LadderRow),
      (ps.map (fun p => p.1.strike)).Nodup →
      ps.foldl (fun l p => dinsert l (p.1.strike, p.2.strike, Side.call)
          (dfind spreads.call_spreads (p.1.strike, p.2.strike)))
        (init_entries ps) = chain_entries_call spreads ps := by
  intro ps
  induction ps with
  | nil => intro _; rfl
  | cons p rest ih =>
    intro hnd
    have hqp : ∀ q ∈ rest, q.1.strike ≠ p.1.strike := by
      intro q hq hh
      refine (List.nodup_cons.mp hnd).1 ?_
      show p.1.strike ∈ List.map (fun x => x.1.strike) rest
      rw [← hh]
      exact List.mem_map_of_mem (fun x => x.1.strike) hq
    show List.foldl _ (dinsert (((p.1.strike, p.2.strike, Side.call), none) ::
      ((p.1.strike, p.2.strike, Side.put), none) :: init_entries rest) _ _) rest = _
    rw [dinsert_cons_self]
    rw [foldl_overwrite_call_cons spreads rest _ _
      (fun q hq hh => hqp q hq (congrArg Prod.fst hh))]
    rw [foldl_overwrite_call_cons spreads rest _ _
      (fun q hq hh => hqp q hq (congrArg Prod.fst hh))]
    rw [ih (List.Nodup.of_cons hnd)]
    rfl

/-- Overwriting the put entries of the skeleton with the looked-up put
spreads yields the disclosed put chain. -/
theorem overwrite_put_fold (spreads : SpreadSet) :
    ∀ ps : List (LadderRow × LadderRow),
      (ps.map (fun p => p.1.strike)).Nodup →
      ps.foldl (fun l p => dinsert l (p.1.strike, p.2.strike, Side.put)
          (dfind spreads.put_spreads (p.1.strike, p.2.strike)))
        (init_entries ps) = chain_entries_put spreads ps := by
  intro ps
  induction ps with
  | nil => intro _; rfl
  | cons p rest ih =>
    intro hnd
    have hqp : ∀ q ∈ rest, q.1.strike ≠ p.1.strike := by
      intro q hq hh
      refine (List.nodup_cons.mp hnd).1 ?_
      show p.1.strike ∈ List.map (fun x => x.1.strike) rest
      rw [← hh]
      exact List.mem_map_of_mem (fun x => x.1.strike) hq
    show List.foldl _ (dinsert (((p.1.strike, p.2.strike, Side.call), none) ::
      ((p.1.strike, p.2.strike, Side.put), none) :: init_entries rest) _ _) rest = _
    rw [dinsert_cons_ne _ _ _ _ (fun hh => by
      have := congrArg (fun t => t.2.2) hh
      simp at this)]
    rw [dinsert_cons_self]
    rw [foldl_overwrite_put_cons spreads rest _ _
      (fun q hq hh => hqp q hq (congrArg Prod.fst hh))]
    rw [foldl_overwrite_put_cons spreads rest _ _
      (fun q hq hh => hqp q hq (congrArg Prod.fst hh))]
    rw [ih (List.Nodup.of_cons hnd)]
    rfl

/-- The spreads stored by the fallback builder with the call coin: the
disclosed call chain. -/
theorem create_simple_spreads_call (l : List LadderRow) (spreads : SpreadSet)
    (hnd : (l.map (·.strike)).Nodup) :
    (create_simple_solvable_exercise l spreads true).spreads =
      chain_entries_call spreads (adjacent_pairs l) := by
  have hfirsts : ((adjacent_pairs l).map (fun p => p.1.strike)).Nodup := by
    rw [adjacent_pairs_firsts]
    exact List.Nodup.sublist (List.dropLast_sublist _) hnd
  have hbase : (init_exercise_data l).spreads = init_entries (adjacent_pairs l) := by
    show (adjacent_pairs l).foldl _ [] = _
    rw [init_fold_eq (adjacent_pairs l) [] hfirsts (fun p hp side => rfl)]
    rw [List.nil_append]
  cases l with
  | nil => rfl
  | cons r0 rest =>
    show (adjacent_pairs (r0 :: rest)).foldl _
      (init_exercise_data (r0 :: rest)).spreads = _
    rw [hbase]
    exact overwrite_call_fold spreads (adjacent_pairs (r0 :: rest)) hfirsts

/-- The spreads stored by the fallback builder with the put coin: the
disclosed put chain. -/
theorem create_simple_spreads_put (l : List LadderRow) (spreads : SpreadSet)
    (hnd : (l.map (·.strike)).Nodup) :
    (create_simple_solvable_exercise l spreads false).spreads =
      chain_entries_put spreads (adjacent_pairs l) := by
  have hfirsts : ((adjacent_pairs l).map (fun p => p.1.strike)).Nodup := by
    rw [adjacent_pairs_firsts]
    exact List.Nodup.sublist (List.dropLast_sublist _) hnd
  have hbase : (init_exercise_data l).spreads = init_entries (adjacent_pairs l) := by
    show (adjacent_pairs l).foldl _ [] = _
    rw [init_fold_eq (adjacent_pairs l) [] hfirsts (fun p hp side => rfl)]
    rw [List.nil_append]
  cases l with
  | nil => rfl
  | cons r0 rest =>
    show (adjacent_pairs (r0 :: rest)).foldl _
      (init_exercise_data (r0 :: rest)).spreads = _
    rw [hbase]
    exact overwrite_put_fold spreads (adjacent_pairs (r0 :: rest)) hfirsts

/-- The fallback puzzle's strikes are the ladder's strikes. -/
theorem create_simple_strikes (l : List LadderRow) (spreads : SpreadSet)
    (b : Bool) :
    (create_simple_solvable_exercise l spreads b).strikes = l.map (·.strike) := by
  cases l <;> cases b <;> rfl

/-- Writing `none` preserves an all-hidden dict. -/
theorem dinsert_all_none {α : Type} [DecidableEq α] :
    ∀ (d : List (α × Option ℚ)) (k : α),
      (∀ p ∈ d, p.2 = none) → ∀ p ∈ dinsert d k none, p.2 = none := by
  intro d
  induction d with
  | nil => intro k _ p hp; rcases List.mem_singleton.mp hp with rfl; rfl
  | cons q rest ih =>
    intro k hall p hp
    rcases q with ⟨k', w⟩
    by_cases h : k' = k
    · rw [show dinsert ((k', w) :: rest) k none = (k', none) :: rest from by
        simp [dinsert, h]] at hp
      rcases List.mem_cons.mp hp with rfl | hp2
      · rfl
      · exact hall p (List.mem_cons_of_mem _ hp2)
    · rw [show dinsert ((k', w) :: rest) k none = (k', w) :: dinsert rest k none from by
        simp [dinsert, h]] at hp
      rcases List.mem_cons.mp hp with rfl | hp2
      · exact hall (k', w) (List.mem_cons_self _ _)
      · exact ih k (fun q hq => hall q (List.mem_cons_of_mem _ hq)) p hp2

/-- Every entry of the all-hidden explicit-price skeleton is `None`. -/
theorem init_explicit_all_none (l : List LadderRow) :
    ∀ p ∈ (init_exercise_data l).explicit_prices, p.2 = none := by
  suffices h : ∀ (rows : List LadderRow) (acc : List ((ℚ × Side) × Option ℚ)),
      (∀ p ∈ acc, p.2 = none) →
      ∀ p ∈ rows.foldl (fun acc row =>
        dinsert (dinsert acc (row.strike, Side.call) none)
          (row.strike, Side.put) none) acc, p.2 = none by
    exact h l [] (fun p hp => absurd hp (List.not_mem_nil p))
  intro rows
  induction rows with
  | nil => intro acc hacc; exact hacc
  | cons row rest ih =>
    intro acc hacc
    rw [List.foldl_cons]
    exact ih _ (dinsert_all_none _ _ (dinsert_all_none _ _ hacc))

/-- Disclosing one value in an all-hidden dict leaves exactly that disclosed
entry. -/
theorem filter_isSome_dinsert_some {α : Type} [DecidableEq α] :
    ∀ (d : List (α × Option ℚ)) (k : α) (v : ℚ),
      (∀ p ∈ d, p.2 = none) →
      (dinsert d k (some v)).filter (fun p => p.2.isSome) = [(k, some v)] := by
  intro d
  induction d with
  | nil => intro k v _; rfl
  | cons q rest ih =>
    intro k v hall
    rcases q with ⟨k', w⟩
    have hw : w = none := hall (k', w) (List.mem_cons_self _ _)
    subst hw
    by_cases h : k' = k
    · rw [show dinsert ((k', none) :: rest) k (some v) = (k', some v) :: rest from by
        simp [dinsert, h]]
      rw [List.filter_cons]
      simp only [Option.isSome_some, if_pos]
      have : rest.filter (fun p => p.2.isSome) = [] := by
        rw [List.filter_eq_nil_iff]
        intro p hp
        rw [(hall p (List.mem_cons_of_mem _ hp) : p.2 = none)]
        simp
      rw [this, h]
    · rw [show dinsert ((k', none) :: rest) k (some v) =
        (k', none) :: dinsert rest k (some v) from by simp [dinsert, h]]
      rw [List.filter_cons]
      simp only [Option.isSome_none]
      rw [if_neg (by simp)]
      exact ih k v (fun q hq => hall q (List.mem_cons_of_mem _ hq))

/-- The fallback puzzle seeds the solver with exactly the first strike's
call. -/
theorem create_simple_seed (r0 : LadderRow) (rest : List LadderRow)
    (spreads : SpreadSet) (b : Bool) :
    seed_state (create_simple_solvable_exercise (r0 :: rest) spreads b) =
      ⟨[(r0.strike, r0.call_price)], [], false⟩ := by
  have hexp : (create_simple_solvable_exercise (r0 :: rest) spreads b).explicit_prices =
      dinsert (init_exercise_data (r0 :: rest)).explicit_prices
        (r0.strike, Side.call) (some r0.call_price) := by
    cases b <;> rfl
  unfold seed_state
  rw [hexp, seed_fold_filter,
    filter_isSome_dinsert_some _ _ _ (init_explicit_all_none (r0 :: rest))]
  rfl

/-- A property preserved by every step is preserved by the fold. -/
theorem foldl_preserve {γ : Type} (P : SolveSt → Prop) (step : SolveSt → γ → SolveSt)
    (hstep : ∀ st x, P st → P (step st x)) :
    ∀ (L : List γ) (st : SolveSt), P st → P (L.foldl step st) := by
  intro L
  induction L with
  | nil => intro st h; exact h
  | cons x t ih => intro st h; exact ih (step st x) (hstep st x h)

/-- A parity step never forgets a known call. -/
theorem parity_step_mono_calls (S r_c : ℚ) (st : SolveSt) (K K' : ℚ)
    (h : dmem st.known_calls K' = true) :
    dmem (parity_step S r_c st K).known_calls K' = true := by
  unfold parity_step
  split_ifs
  · exact h
  · exact (dmem_dinsert _ _ _ _).mpr (Or.inr h)
  · exact h

/-- A parity step never forgets a known put. -/
theorem parity_step_mono_puts (S r_c : ℚ) (st : SolveSt) (K K' : ℚ)
    (h : dmem st.known_puts K' = true) :
    dmem (parity_step S r_c st K).known_puts K' = true := by
  unfold parity_step
  split_ifs
  · exact (dmem_dinsert _ _ _ _).mpr (Or.inr h)
  · exact h
  · exact h

/-- A spread step never forgets a known call. -/
theorem spread_step_mono_calls (st : SolveSt) (p : (ℚ × ℚ × Side) × Option ℚ)
    (K' : ℚ) (h : dmem st.known_calls K' = true) :
    dmem (spread_step st p).known_calls K' = true := by
  rcases p with ⟨⟨k1, k2, side⟩, val⟩
  cases side <;> rcases val with _ | v <;> simp only [spread_step] <;>
    try exact h
  · split_ifs
    · exact (dmem_dinsert _ _ _ _).mpr (Or.inr h)
    · exact (dmem_dinsert _ _ _ _).mpr (Or.inr h)
    · exact h
  · split_ifs <;> exact h

/-- A spread step never forgets a known put. -/
theorem spread_step_mono_puts (st : SolveSt) (p : (ℚ × ℚ × Side) × Option ℚ)
    (K' : ℚ) (h : dmem st.known_puts K' = true) :
    dmem (spread_step st p).known_puts K' = true := by
  rcases p with ⟨⟨k1, k2, side⟩, val⟩
  cases side <;> rcases val with _ | v <;> simp only [spread_step] <;>
    try exact h
  · split_ifs <;> exact h
  · split_ifs
    · exact (dmem_dinsert _ _ _ _).mpr (Or.inr h)
    · exact (dmem_dinsert _ _ _ _).mpr (Or.inr h)
    · exact h

/-- One solver round never forgets a known call. -/
theorem one_iteration_mono_calls (e : ExerciseData) (S r_c : ℚ) (st : SolveSt)
    (K' : ℚ) (h : dmem st.known_calls K' = true) :
    dmem (one_iteration e S r_c st).known_calls K' = true := by
  unfold one_iteration parity_pass spread_pass
  refine foldl_preserve (fun s => dmem s.known_calls K' = true) spread_step
    (fun s x hx => spread_step_mono_calls s x K' hx) e.spreads _ ?_
  exact foldl_preserve (fun s => dmem s.known_calls K' = true) (parity_step S r_c)
    (fun s x hx => parity_step_mono_calls S r_c s x K' hx) e.strikes _ h

/-- One solver round never forgets a known put. -/
theorem one_iteration_mono_puts (e : ExerciseData) (S r_c : ℚ) (st : SolveSt)
    (K' : ℚ) (h : dmem st.known_puts K' = true) :
    dmem (one_iteration e S r_c st).known_puts K' = true := by
  unfold one_iteration parity_pass spread_pass
  refine foldl_preserve (fun s => dmem s.known_puts K' = true) spread_step
    (fun s x hx => spread_step_mono_puts s x K' hx) e.spreads _ ?_
  exact foldl_preserve (fun s => dmem s.known_puts K' = true) (parity_step S r_c)
    (fun s x hx => parity_step_mono_puts S r_c s x K' hx) e.strikes _ h

/-- The bounded fixpoint loop never forgets a known call. -/
theorem solve_loop_mono_calls (e : ExerciseData) (S r_c : ℚ) :
    ∀ (fuel : Nat) (st : SolveSt) (K' : ℚ), dmem st.known_calls K' = true →
      dmem (solve_loop e S r_c fuel st).known_calls K' = true := by
  intro fuel
  induction fuel with
  | zero => intro st K' h; exact h
  | succ f ih =>
    intro st K' h
    rw [solve_loop_succ]
    split_ifs
    · exact ih _ K' (one_iteration_mono_calls e S r_c st K' h)
    · exact one_iteration_mono_calls e S r_c st K' h

/-- The bounded fixpoint loop never forgets a known put. -/
theorem solve_loop_mono_puts (e : ExerciseData) (S r_c : ℚ) :
    ∀ (fuel : Nat) (st : SolveSt) (K' : ℚ), dmem st.known_puts K' = true →
      dmem (solve_loop e S r_c fuel st).known_puts K' = true := by
  intro fuel
  induction fuel with
  | zero => intro st K' h; exact h
  | succ f ih =>
    intro st K' h
    rw [solve_loop_succ]
    split_ifs
    · exact ih _ K' (one_iteration_mono_puts e S r_c st K' h)
    · exact one_iteration_mono_puts e S r_c st K' h

/-- After the parity phase, every strike of the list whose call was known at
entry has its put known. -/
theorem parity_fold_covers_puts (S r_c : ℚ) :
    ∀ (L : List ℚ) (st : SolveSt) (K : ℚ), K ∈ L →
      dmem st.known_calls K = true →
      dmem (L.foldl (parity_step S r_c) st).known_puts K = true := by
  intro L
  induction L with
  | nil => intro st K hK; cases hK
  | cons K0 t ih =>
    intro st K hK hc
    rw [List.foldl_cons]
    rcases List.mem_cons.mp hK with rfl | hKt
    · have hstep : dmem (parity_step S r_c st K).known_puts K = true := by
        cases hp : dmem st.known_puts K
        · unfold parity_step
          rw [hc, hp]
          simp only [Bool.not_false, Bool.and_self, if_pos]
          exact (dmem_dinsert _ _ _ _).mpr (Or.inl rfl)
        · exact parity_step_mono_puts S r_c st K K hp
      exact foldl_preserve (fun s => dmem s.known_puts K = true) (parity_step S r_c)
        (fun s x hx => parity_step_mono_puts S r_c s x K hx) t _ hstep
    · exact ih (parity_step S r_c st K0) K hKt
        (parity_step_mono_calls S r_c st K0 K hc)

/-- After the parity phase, every strike of the list whose put was known at
entry has its call known. -/
theorem parity_fold_covers_calls (S r_c : ℚ) :
    ∀ (L : List ℚ) (st : SolveSt) (K : ℚ), K ∈ L →
      dmem st.known_puts K = true →
      dmem (L.foldl (parity_step S r_c) st).known_calls K = true := by
  intro L
  induction L with
  | nil => intro st K hK; cases hK
  | cons K0 t ih =>
    intro st K hK hp
    rw [List.foldl_cons]
    rcases List.mem_cons.mp hK with rfl | hKt
    · have hstep : dmem (parity_step S r_c st K).known_calls K = true := by
        cases hc : dmem st.known_calls K
        · unfold parity_step
          rw [hc, hp]
          simp only [Bool.not_false, Bool.not_true, Bool.and_false,
            Bool.and_true, Bool.false_and, if_neg, if_pos]
          exact (dmem_dinsert _ _ _ _).mpr (Or.inl rfl)
        · exact parity_step_mono_calls S r_c st K K hc
      exact foldl_preserve (fun s => dmem s.known_calls K = true) (parity_step S r_c)
        (fun s x hx => parity_step_mono_calls S r_c s x K hx) t _ hstep
    · exact ih (parity_step S r_c st K0) K hKt
        (parity_step_mono_puts S r_c st K0 K hp)

/-- A disclosed call spread with its lower endpoint known makes its upper
endpoint known. -/
theorem spread_step_call_some (st : SolveSt) (k1 k2 v : ℚ)
    (h1 : dmem st.known_calls k1 = true) :
    dmem (spread_step st ((k1, k2, Side.call), some v)).known_calls k2 = true := by
  cases h2 : dmem st.known_calls k2
  · simp only [spread_step]
    rw [h1, h2]
    simp only [Bool.not_false, Bool.and_self, Bool.true_and, if_pos]
    exact (dmem_dinsert _ _ _ _).mpr (Or.inl rfl)
  · exact spread_step_mono_calls st _ k2 h2

/-- A disclosed put spread with its lower endpoint known makes its upper
endpoint known. -/
theorem spread_step_put_some (st : SolveSt) (k1 k2 v : ℚ)
    (h1 : dmem st.known_puts k1 = true) :
    dmem (spread_step st ((k1, k2, Side.put), some v)).known_puts k2 = true := by
  cases h2 : dmem st.known_puts k2
  · simp only [spread_step]
    rw [h1, h2]
    simp only [Bool.not_false, Bool.and_self, Bool.true_and, if_pos]
    exact (dmem_dinsert _ _ _ _).mpr (Or.inl rfl)
  · exact spread_step_mono_puts st _ k2 h2

/-- Processing the disclosed call chain with the anchor's call known makes
every strike's call known. -/
theorem chain_call_covers (spreads : SpreadSet) :
    ∀ (rest : List LadderRow) (r : LadderRow) (st : SolveSt),
      dmem st.known_calls r.strike = true →
      (∀ p ∈ adjacent_pairs (r :: rest),
        dmem spreads.call_spreads (p.1.strike, p.2.strike) = true) →
      ∀ K ∈ (r :: rest).map (·.strike),
        dmem ((chain_entries_call spreads (adjacent_pairs (r :: rest))).foldl
          spread_step st).known_calls K = true := by
  intro rest
  induction rest with
  | nil =>
    intro r st hr _ K hK
    rcases List.mem_singleton.mp (by simpa using hK) with rfl
    exact hr
  | cons r2 rest' ih =>
    intro r st hr hsp K hK
    have hsome : dmem spreads.call_spreads (r.strike, r2.strike) = true :=
      hsp (r, r2) (List.mem_cons_self _ _)
    obtain ⟨v, hv⟩ := Option.isSome_iff_exists.mp hsome
    show dmem ((((r.strike, r2.strike, Side.call),
      dfind spreads.call_spreads (r.strike, r2.strike)) ::
      ((r.strike, r2.strike, Side.put), none) ::
      chain_entries_call spreads (adjacent_pairs (r2 :: rest'))).foldl
        spread_step st).known_calls K = true
    rw [List.foldl_cons, List.foldl_cons, hv, spread_step_none]
    have hst1c : dmem (spread_step st ((r.strike, r2.strike, Side.call), some v)).known_calls
        r.strike = true := spread_step_mono_calls st _ r.strike hr
    have hst1c2 : dmem (spread_step st ((r.strike, r2.strike, Side.call), some v)).known_calls
        r2.strike = true := spread_step_call_some st r.strike r2.strike v hr
    rw [List.map_cons] at hK
    rcases List.mem_cons.mp hK with rfl | hKt
    · exact foldl_preserve (fun s => dmem s.known_calls r.strike = true) spread_step
        (fun s x hx => spread_step_mono_calls s x r.strike hx) _ _ hst1c
    · exact ih r2 _ hst1c2
        (fun p hp => hsp p (List.mem_cons_of_mem _ hp)) K hKt

/-- Processing the disclosed put chain with the anchor's put known makes
every strike's put known. -/
theorem chain_put_covers (spreads : SpreadSet) :
    ∀ (rest : List LadderRow) (r : LadderRow) (st : SolveSt),
      dmem st.known_puts r.strike = true →
      (∀ p ∈ adjacent_pairs (r :: rest),
        dmem spreads.put_spreads (p.1.strike, p.2.strike) = true) →
      ∀ K ∈ (r :: rest).map (·.strike),
        dmem ((chain_entries_put spreads (adjacent_pairs (r :: rest))).foldl
          spread_step st).known_puts K = true := by
  intro rest
  induction rest with
  | nil =>
    intro r st hr _ K hK
    rcases List.mem_singleton.mp (by simpa using hK) with rfl
    exact hr
  | cons r2 rest' ih =>
    intro r st hr hsp K hK
    have hsome : dmem spreads.put_spreads (r.strike, r2.strike) = true :=
      hsp (r, r2) (List.mem_cons_self _ _)
    obtain ⟨v, hv⟩ := Option.isSome_iff_exists.mp hsome
    show dmem ((((r.strike, r2.strike, Side.call), none) ::
      ((r.strike, r2.strike, Side.put),
        dfind spreads.put_spreads (r.strike, r2.strike)) ::
      chain_entries_put spreads (adjacent_pairs (r2 :: rest'))).foldl
        spread_step st).known_puts K = true
    rw [List.foldl_cons, spread_step_none, List.foldl_cons, hv]
    have hst1c : dmem (spread_step st ((r.strike, r2.strike, Side.put), some v)).known_puts
        r.strike = true := spread_step_mono_puts st _ r.strike hr
    have hst1c2 : dmem (spread_step st ((r.strike, r2.strike, Side.put), some v)).known_puts
        r2.strike = true := spread_step_put_some st r.strike r2.strike v hr
    rw [List.map_cons] at hK
    rcases List.mem_cons.mp hK with rfl | hKt
    · exact foldl_preserve (fun s => dmem s.known_puts r.strike = true) spread_step
        (fun s x hx => spread_step_mono_puts s x r.strike hx) _ _ hst1c
    · exact ih r2 _ hst1c2
        (fun p hp => hsp p (List.mem_cons_of_mem _ hp)) K hKt

/-- A parity step keeps the progress flag set. -/
theorem parity_step_progress (S r_c : ℚ) (st : SolveSt) (K : ℚ)
    (h : st.progress_made = true) :
    (parity_step S r_c st K).progress_made = true := by
  unfold parity_step
  split_ifs <;> first | rfl | exact h

/-- A spread step keeps the progress flag set. -/
theorem spread_step_progress (st : SolveSt) (p : (ℚ × ℚ × Side) × Option ℚ)
    (h : st.progress_made = true) :
    (spread_step st p).progress_made = true := by
  rcases p with ⟨⟨k1, k2, side⟩, val⟩
  cases side <;> rcases val with _ | v
  · exact h
  · simp only [spread_step]; split_ifs <;> first | rfl | exact h
  · exact h
  · simp only [spread_step]; split_ifs <;> first | rfl | exact h

/-- A parity step is a skip or reports progress. -/
theorem parity_step_cases (S r_c : ℚ) (st : SolveSt) (K : ℚ) :
    parity_step S r_c st K = st ∨ (parity_step S r_c st K).progress_made = true := by
  unfold parity_step
  split_ifs
  · right; rfl
  · right; rfl
  · left; rfl

/-- A spread step is a skip or reports progress. -/
theorem spread_step_cases (st : SolveSt) (p : (ℚ × ℚ × Side) × Option ℚ) :
    spread_step st p = st ∨ (spread_step st p).progress_made = true := by
  rcases p with ⟨⟨k1, k2, side⟩, val⟩
  cases side <;> rcases val with _ | v
  · exact Or.inl rfl
  · simp only [spread_step]; split_ifs
    · right; rfl
    · right; rfl
    · left; rfl
  · exact Or.inl rfl
  · simp only [spread_step]; split_ifs
    · right; rfl
    · right; rfl
    · left; rfl

/-- A fold that ends without the progress flag never moved. -/
theorem foldl_id_of_no_progress {γ : Type} (step : SolveSt → γ → SolveSt)
    (hdich : ∀ st x, step st x = st ∨ (step st x).progress_made = true)
    (hmono : ∀ st x, st.progress_made = true → (step st x).progress_made = true) :
    ∀ (L : List γ) (st : SolveSt), (L.foldl step st).progress_made = false →
      L.foldl step st = st := by
  intro L
  induction L with
  | nil => intro st _; rfl
  | cons x t ih =>
    intro st h
    rw [List.foldl_cons] at h ⊢
    rcases hdich st x with heq | hprog
    · rw [heq] at h ⊢
      exact ih st h
    · exfalso
      have := foldl_preserve (fun s => s.progress_made = true) step hmono t
        (step st x) hprog
      rw [this] at h
      cases h

/-- A solver round that reports no progress leaves the known maps unchanged. -/
theorem one_iteration_no_progress (e : ExerciseData) (S r_c : ℚ) (st : SolveSt)
    (h : (one_iteration e S r_c st).progress_made = false) :
    (one_iteration e S r_c st).known_calls = st.known_calls ∧
    (one_iteration e S r_c st).known_puts = st.known_puts := by
  unfold one_iteration spread_pass parity_pass at h ⊢
  have h1 := foldl_id_of_no_progress spread_step spread_step_cases
    spread_step_progress e.spreads _ h
  rw [h1] at h ⊢
  have h2 := foldl_id_of_no_progress (parity_step S r_c) (parity_step_cases S r_c)
    (parity_step_progress S r_c) e.strikes _ h
  rw [h2]
  exact ⟨rfl, rfl⟩

/-- Any key, once present, stays present through the spread-set fold. -/
theorem calc_fold_mono_call :
    ∀ (ps : List (LadderRow × LadderRow)) (acc : SpreadSet) (k : ℚ × ℚ),
      dmem acc.call_spreads k = true →
      dmem ((ps.foldl (fun s p =>
        ({ call_spreads := dinsert s.call_spreads (p.1.strike, p.2.strike)
             (round2 (p.1.call_price - p.2.call_price))
           put_spreads := dinsert s.put_spreads (p.1.strike, p.2.strike)
             (round2 (p.2.put_price - p.1.put_price))
           box_spreads := dinsert s.box_spreads (p.1.strike, p.2.strike)
             (round2 ((p.1.call_price - p.2.call_price) +
               (p.2.put_price - p.1.put_price))) } : SpreadSet)) acc)).call_spreads
        k = true := by
  intro ps
  induction ps with
  | nil => intro acc k h; exact h
  | cons q t ih =>
    intro acc k h
    rw [List.foldl_cons]
    exact ih _ k ((dmem_dinsert _ _ _ _).mpr (Or.inr h))

/-- Any key, once present, stays present through the spread-set fold. -/
theorem calc_fold_mono_put :
    ∀ (ps : List (LadderRow × LadderRow)) (acc : SpreadSet) (k : ℚ × ℚ),
      dmem acc.put_spreads k = true →
      dmem ((ps.foldl (fun s p =>
        ({ call_spreads := dinsert s.call_spreads (p.1.strike, p.2.strike)
             (round2 (p.1.call_price - p.2.call_price))
           put_spreads := dinsert s.put_spreads (p.1.strike, p.2.strike)
             (round2 (p.2.put_price - p.1.put_price))
           box_spreads := dinsert s.box_spreads (p.1.strike, p.2.strike)
             (round2 ((p.1.call_price - p.2.call_price) +
               (p.2.put_price - p.1.put_price))) } : SpreadSet)) acc)).put_spreads
        k = true := by
  intro ps
  induction ps with
  | nil => intro acc k h; exact h
  | cons q t ih =>
    intro acc k h
    rw [List.foldl_cons]
    exact ih _ k ((dmem_dinsert _ _ _ _).mpr (Or.inr h))

/-- Every adjacent pair has a call spread in the computed spread set. -/
theorem calc_spreads_mem_call (l : List LadderRow) :
    ∀ p ∈ adjacent_pairs l,
      dmem (calculate_all_spreads l).call_spreads (p.1.strike, p.2.strike) = true := by
  suffices h : ∀ (ps : List (LadderRow × LadderRow)) (acc : SpreadSet),
      ∀ p ∈ ps, dmem ((ps.foldl (fun s p =>
        ({ call_spreads := dinsert s.call_spreads (p.1.strike, p.2.strike)
             (round2 (p.1.call_price - p.2.call_price))
           put_spreads := dinsert s.put_spreads (p.1.strike, p.2.strike)
             (round2 (p.2.put_price - p.1.put_price))
           box_spreads := dinsert s.box_spreads (p.1.strike, p.2.strike)
             (round2 ((p.1.call_price - p.2.call_price) +
               (p.2.put_price - p.1.put_price))) } : SpreadSet)) acc)).call_spreads
        (p.1.strike, p.2.strike) = true by
    exact h (adjacent_pairs l) ⟨[], [], []⟩
  intro ps
  induction ps with
  | nil => intro acc p hp; cases hp
  | cons q t ih =>
    intro acc p hp
    rw [List.foldl_cons]
    rcases List.mem_cons.mp hp with rfl | hpt
    · exact calc_fold_mono_call t _ _ ((dmem_dinsert _ _ _ _).mpr (Or.inl rfl))
    · exact ih _ p hpt

/-- Every adjacent pair has a put spread in the computed spread set. -/
theorem calc_spreads_mem_put (l : List LadderRow) :
    ∀ p ∈ adjacent_pairs l,
      dmem (calculate_all_spreads l).put_spreads (p.1.strike, p.2.strike) = true := by
  suffices h : ∀ (ps : List (LadderRow × LadderRow)) (acc : SpreadSet),
      ∀ p ∈ ps, dmem ((ps.foldl (fun s p =>
        ({ call_spreads := dinsert s.call_spreads (p.1.strike, p.2.strike)
             (round2 (p.1.call_price - p.2.call_price))
           put_spreads := dinsert s.put_spreads (p.1.strike, p.2.strike)
             (round2 (p.2.put_price - p.1.put_price))
           box_spreads := dinsert s.box_spreads (p.1.strike, p.2.strike)
             (round2 ((p.1.call_price - p.2.call_price) +
               (p.2.put_price - p.1.put_price))) } : SpreadSet)) acc)).put_spreads
        (p.1.strike, p.2.strike) = true by
    exact h (adjacent_pairs l) ⟨[], [], []⟩
  intro ps
  induction ps with
  | nil => intro acc p hp; cases hp
  | cons q t ih =>
    intro acc p hp
    rw [List.foldl_cons]
    rcases List.mem_cons.mp hp with rfl | hpt
    · exact calc_fold_mono_put t _ _ ((dmem_dinsert _ _ _ _).mpr (Or.inl rfl))
    · exact ih _ p hpt

/-- A puzzle whose every strike is covered after propagation is reported
solvable. -/
theorem verify_eq_true_of_covered (e : ExerciseData) (S r_c : ℚ)
    (h : ∀ K ∈ e.strikes, dmem (solve_state e S r_c).known_calls K = true ∨
      dmem (solve_state e S r_c).known_puts K = true) :
    verify_exercise_solvable e S r_c = true := by
  simp only [verify_exercise_solvable]
  rw [List.filter_eq_self.mpr (fun K hK => by
    rcases h K (List.mem_dedup.mp hK) with hc | hp
    · rw [hc]; rfl
    · rw [hp]; simp)]
  simp

/-- C7: the fallback puzzle built by `create_simple_solvable_exercise` —
one anchor explicit price (the first strike's call) plus a complete chain of
one side's spreads across all adjacent strike pairs — is reported solvable by
`verify_exercise_solvable`, with both the call and the put derivable at every
strike. -/
theorem C7_fallback_puzzle_solvable (l : List LadderRow) (b : Bool) (S r_c : ℚ)
    (hne : l ≠ []) (hnd : (l.map (·.strike)).Nodup) :
    verify_exercise_solvable
      (create_simple_solvable_exercise l (calculate_all_spreads l) b) S r_c
      = true ∧
    ∀ K ∈ (create_simple_solvable_exercise l (calculate_all_spreads l) b).strikes,
      dmem (solve_state
        (create_simple_solvable_exercise l (calculate_all_spreads l) b) S r_c).known_calls K = true ∧
      dmem (solve_state
        (create_simple_solvable_exercise l (calculate_all_spreads l) b) S r_c).known_puts K = true := by
  rcases l with _ | ⟨r0, rest⟩
  · exact absurd rfl hne
  cases b
  · -- put-chain fallback
    set e := create_simple_solvable_exercise (r0 :: rest)
      (calculate_all_spreads (r0 :: rest)) false with he
    have hstr : e.strikes = (r0 :: rest).map (·.strike) := by
      rw [he]; exact create_simple_strikes _ _ _
    have hseed : seed_state e = ⟨[(r0.strike, r0.call_price)], [], false⟩ := by
      rw [he]; exact create_simple_seed _ _ _ _
    have hspreads : e.spreads = chain_entries_put (calculate_all_spreads (r0 :: rest))
        (adjacent_pairs (r0 :: rest)) := by
      rw [he]; exact create_simple_spreads_put _ _ hnd
    have hc0 : dmem ((⟨[(r0.strike, r0.call_price)], [], false⟩ : SolveSt)).known_calls r0.strike = true := by
      simp [dmem, dfind]
    have hmem : r0.strike ∈ e.strikes := by
      rw [hstr]; simp
    have hA : ∀ K ∈ (r0 :: rest).map (·.strike),
        dmem (one_iteration e S r_c ⟨[(r0.strike, r0.call_price)], [], false⟩).known_puts K = true := by
      intro K hK
      show dmem ((e.spreads).foldl spread_step
        (parity_pass e S r_c ⟨[(r0.strike, r0.call_price)], [], false⟩)).known_puts K = true
      rw [hspreads]
      refine chain_put_covers _ rest r0 _ ?_ (calc_spreads_mem_put _) K hK
      exact parity_fold_covers_puts S r_c e.strikes _ r0.strike hmem hc0
    have hGood2 : ∀ st : SolveSt,
        (∀ K ∈ (r0 :: rest).map (·.strike), dmem st.known_puts K = true) →
        ∀ K ∈ (r0 :: rest).map (·.strike),
          dmem (one_iteration e S r_c st).known_calls K = true ∧
          dmem (one_iteration e S r_c st).known_puts K = true := by
      intro st hst K hK
      refine ⟨?_, one_iteration_mono_puts e S r_c st K (hst K hK)⟩
      show dmem ((e.spreads).foldl spread_step
        (parity_pass e S r_c { st with progress_made := false })).known_calls K = true
      refine foldl_preserve (fun s => dmem s.known_calls K = true) spread_step
        (fun s x hx => spread_step_mono_calls s x K hx) e.spreads _ ?_
      refine parity_fold_covers_calls S r_c e.strikes _ K ?_ (hst K hK)
      rw [hstr]; exact hK
    have hGoodAll : ∀ K ∈ (r0 :: rest).map (·.strike),
        dmem (solve_state e S r_c).known_calls K = true ∧
        dmem (solve_state e S r_c).known_puts K = true := by
      unfold solve_state
      rw [hseed, show (50 : Nat) = 49 + 1 from rfl, solve_loop_succ]
      by_cases h1 : (one_iteration e S r_c
          ⟨[(r0.strike, r0.call_price)], [], false⟩).progress_made = true
      · rw [if_pos h1, show (49 : Nat) = 48 + 1 from rfl, solve_loop_succ]
        by_cases h2 : (one_iteration e S r_c (one_iteration e S r_c
            ⟨[(r0.strike, r0.call_price)], [], false⟩)).progress_made = true
        · rw [if_pos h2]
          intro K hK
          have hg := hGood2 _ hA K hK
          exact ⟨solve_loop_mono_calls e S r_c 48 _ K hg.1,
            solve_loop_mono_puts e S r_c 48 _ K hg.2⟩
        · rw [if_neg h2]
          exact hGood2 _ hA
      · rw [if_neg h1]
        exfalso
        have hflag : (one_iteration e S r_c
            ⟨[(r0.strike, r0.call_price)], [], false⟩).progress_made = false := by
          revert h1
          cases (one_iteration e S r_c
            ⟨[(r0.strike, r0.call_price)], [], false⟩).progress_made <;> simp
        have hnp := one_iteration_no_progress e S r_c _ hflag
        have hput := hA r0.strike (by simp)
        rw [hnp.2] at hput
        simp [dmem, dfind] at hput
    refine ⟨?_, ?_⟩
    · refine verify_eq_true_of_covered e S r_c (fun K hK => ?_)
      rw [hstr] at hK
      exact Or.inl (hGoodAll K hK).1
    · intro K hK
      rw [hstr] at hK
      exact hGoodAll K hK
  · -- call-chain fallback
    set e := create_simple_solvable_exercise (r0 :: rest)
      (calculate_all_spreads (r0 :: rest)) true with he
    have hstr : e.strikes = (r0 :: rest).map (·.strike) := by
      rw [he]; exact create_simple_strikes _ _ _
    have hseed : seed_state e = ⟨[(r0.strike, r0.call_price)], [], false⟩ := by
      rw [he]; exact create_simple_seed _ _ _ _
    have hspreads : e.spreads = chain_entries_call (calculate_all_spreads (r0 :: rest))
        (adjacent_pairs (r0 :: rest)) := by
      rw [he]; exact create_simple_spreads_call _ _ hnd
    have hc0 : dmem ((⟨[(r0.strike, r0.call_price)], [], false⟩ : SolveSt)).known_calls r0.strike = true := by
      simp [dmem, dfind]
    have hmem : r0.strike ∈ e.strikes := by
      rw [hstr]; simp
    have hA : ∀ K ∈ (r0 :: rest).map (·.strike),
        dmem (one_iteration e S r_c ⟨[(r0.strike, r0.call_price)], [], false⟩).known_calls K = true := by
      intro K hK
      show dmem ((e.spreads).foldl spread_step
        (parity_pass e S r_c ⟨[(r0.strike, r0.call_price)], [], false⟩)).known_calls K = true
      rw [hspreads]
      refine chain_call_covers _ rest r0 _ ?_ (calc_spreads_mem_call _) K hK
      exact foldl_preserve (fun s => dmem s.known_calls r0.strike = true)
        (parity_step S r_c)
        (fun s x hx => parity_step_mono_calls S r_c s x r0.strike hx)
        e.strikes _ hc0
    have hB : dmem (one_iteration e S r_c
        ⟨[(r0.strike, r0.call_price)], [], false⟩).known_puts r0.strike = true := by
      show dmem ((e.spreads).foldl spread_step
        (parity_pass e S r_c ⟨[(r0.strike, r0.call_price)], [], false⟩)).known_puts r0.strike = true
      refine foldl_preserve (fun s => dmem s.known_puts r0.strike = true) spread_step
        (fun s x hx => spread_step_mono_puts s x r0.strike hx) e.spreads _ ?_
      exact parity_fold_covers_puts S r_c e.strikes _ r0.strike hmem hc0
    have hGood2 : ∀ st : SolveSt,
        (∀ K ∈ (r0 :: rest).map (·.strike), dmem st.known_calls K = true) →
        ∀ K ∈ (r0 :: rest).map (·.strike),
          dmem (one_iteration e S r_c st).known_calls K = true ∧
          dmem (one_iteration e S r_c st).known_puts K = true := by
      intro st hst K hK
      refine ⟨one_iteration_mono_calls e S r_c st K (hst K hK), ?_⟩
      show dmem ((e.spreads).foldl spread_step
        (parity_pass e S r_c { st with progress_made := false })).known_puts K = true
      refine foldl_preserve (fun s => dmem s.known_puts K = true) spread_step
        (fun s x hx => spread_step_mono_puts s x K hx) e.spreads _ ?_
      refine parity_fold_covers_puts S r_c e.strikes _ K ?_ (hst K hK)
      rw [hstr]; exact hK
    have hGoodAll : ∀ K ∈ (r0 :: rest).map (·.strike),
        dmem (solve_state e S r_c).known_calls K = true ∧
        dmem (solve_state e S r_c).known_puts K = true := by
      unfold solve_state
      rw [hseed, show (50 : Nat) = 49 + 1 from rfl, solve_loop_succ]
      by_cases h1 : (one_iteration e S r_c
          ⟨[(r0.strike, r0.call_price)], [], false⟩).progress_made = true
      · rw [if_pos h1, show (49 : Nat) = 48 + 1 from rfl, solve_loop_succ]
        by_cases h2 : (one_iteration e S r_c (one_iteration e S r_c
            ⟨[(r0.strike, r0.call_price)], [], false⟩)).progress_made = true
        · rw [if_pos h2]
          intro K hK
          have hg := hGood2 _ hA K hK
          exact ⟨solve_loop_mono_calls e S r_c 48 _ K hg.1,
            solve_loop_mono_puts e S r_c 48 _ K hg.2⟩
        · rw [if_neg h2]
          exact hGood2 _ hA
      · rw [if_neg h1]
        exfalso
        have hflag : (one_iteration e S r_c
            ⟨[(r0.strike, r0.call_price)], [], false⟩).progress_made = false := by
          revert h1
          cases (one_iteration e S r_c
            ⟨[(r0.strike, r0.call_price)], [], false⟩).progress_made <;> simp
        have hnp := one_iteration_no_progress e S r_c _ hflag
        have hput := hB
        rw [hnp.2] at hput
        simp [dmem, dfind] at hput
    refine ⟨?_, ?_⟩
    · refine verify_eq_true_of_covered e S r_c (fun K hK => ?_)
      rw [hstr] at hK
      exact Or.inl (hGoodAll K hK).1
    · intro K hK
      rw [hstr] at hK
      exact hGoodAll K hK

/-- Witness for C7 at a concrete two-row ladder. -/
theorem C7_fallback_puzzle_solvable_witness :
    (ladderC4 ≠ [] ∧ (ladderC4.map (·.strike)).Nodup) ∧
    verify_exercise_solvable
      (create_simple_solvable_exercise ladderC4 (calculate_all_spreads ladderC4)
        true) 0 0 = true :=
  ⟨⟨by decide, by decide⟩,
    (C7_fallback_puzzle_solvable ladderC4 true 0 0 (by decide) (by decide)).1⟩

/-- Inserting a fresh key grows the key set by exactly one. -/
theorem card_dkeys_dinsert_fresh {α β : Type} [DecidableEq α] (d : List (α × β))
    (k : α) (v : β) (h : dmem d k = false) :
    (dkeys (dinsert d k v)).toFinset.card = (dkeys d).toFinset.card + 1 := by
  rw [dkeys_dinsert_of_not_mem d k v h, List.toFinset_append]
  have hk : k ∉ (dkeys d).toFinset := by
    intro hm
    rw [(dmem_iff d k).mpr (List.mem_toFinset.mp hm)] at h
    cases h
  rw [show ([k] : List α).toFinset = {k} from rfl, Finset.union_comm,
    ← Finset.insert_eq]
  exact Finset.card_insert_of_not_mem hk

/-- Inserting never shrinks the key set. -/
theorem card_dkeys_dinsert_ge {α β : Type} [DecidableEq α] (d : List (α × β))
    (k : α) (v : β) :
    (dkeys d).toFinset.card ≤ (dkeys (dinsert d k v)).toFinset.card := by
  cases h : dmem d k
  · rw [card_dkeys_dinsert_fresh d k v h]
    omega
  · rw [dkeys_dinsert_of_mem d k v h]

/-- A parity step is a skip or strictly grows the state size. -/
theorem parity_step_size (S r_c : ℚ) (st : SolveSt) (K : ℚ) :
    parity_step S r_c st K = st ∨
      state_size st + 1 ≤ state_size (parity_step S r_c st K) := by
  unfold parity_step
  split_ifs with h1 h2
  · right
    simp only [Bool.and_eq_true, Bool.not_eq_true'] at h1
    simp only [state_size]
    rw [card_dkeys_dinsert_fresh _ _ _ h1.2]
    omega
  · right
    simp only [Bool.and_eq_true, Bool.not_eq_true'] at h2
    simp only [state_size]
    rw [card_dkeys_dinsert_fresh _ _ _ h2.2]
    omega
  · left; rfl

/-- A spread step is a skip or strictly grows the state size. -/
theorem spread_step_size (st : SolveSt) (p : (ℚ × ℚ × Side) × Option ℚ) :
    spread_step st p = st ∨ state_size st + 1 ≤ state_size (spread_step st p) := by
  rcases p with ⟨⟨k1, k2, side⟩, val⟩
  cases side <;> rcases val with _ | v
  · exact Or.inl rfl
  · simp only [spread_step]
    split_ifs with h1 h2
    · right
      simp only [Bool.and_eq_true, Bool.not_eq_true'] at h1
      simp only [state_size]
      rw [card_dkeys_dinsert_fresh _ _ _ h1.2]
      omega
    · right
      simp only [Bool.and_eq_true, Bool.not_eq_true'] at h2
      simp only [state_size]
      rw [card_dkeys_dinsert_fresh _ _ _ h2.2]
      omega
    · left; rfl
  · exact Or.inl rfl
  · simp only [spread_step]
    split_ifs with h1 h2
    · right
      simp only [Bool.and_eq_true, Bool.not_eq_true'] at h1
      simp only [state_size]
      rw [card_dkeys_dinsert_fresh _ _ _ h1.2]
      omega
    · right
      simp only [Bool.and_eq_true, Bool.not_eq_true'] at h2
      simp only [state_size]
      rw [card_dkeys_dinsert_fresh _ _ _ h2.2]
      omega
    · left; rfl

/-- A parity step never shrinks the state size. -/
theorem parity_step_size_mono (S r_c : ℚ) (st : SolveSt) (K : ℚ) :
    state_size st ≤ state_size (parity_step S r_c st K) := by
  rcases parity_step_size S r_c st K with h | h
  · rw [h]
  · omega

/-- A spread step never shrinks the state size. -/
theorem spread_step_size_mono (st : SolveSt) (p : (ℚ × ℚ × Side) × Option ℚ) :
    state_size st ≤ state_size (spread_step st p) := by
  rcases spread_step_size st p with h | h
  · rw [h]
  · omega

/-- A fold of size-monotone steps never shrinks the state size. -/
theorem foldl_size_mono {γ : Type} (step : SolveSt → γ → SolveSt)
    (hmono : ∀ st x, state_size st ≤ state_size (step st x)) :
    ∀ (L : List γ) (st : SolveSt), state_size st ≤ state_size (L.foldl step st) := by
  intro L
  induction L with
  | nil => intro st; exact Nat.le_refl _
  | cons x t ih => intro st; exact Nat.le_trans (hmono st x) (ih (step st x))

/-- A fold of skip-or-grow steps is the identity or strictly grows the size. -/
theorem foldl_size_cases {γ : Type} (step : SolveSt → γ → SolveSt)
    (hdich : ∀ st x, step st x = st ∨ state_size st + 1 ≤ state_size (step st x))
    (hmono : ∀ st x, state_size st ≤ state_size (step st x)) :
    ∀ (L : List γ) (st : SolveSt), L.foldl step st = st ∨
      state_size st + 1 ≤ state_size (L.foldl step st) := by
  intro L
  induction L with
  | nil => intro st; exact Or.inl rfl
  | cons x t ih =>
    intro st
    rw [List.foldl_cons]
    rcases hdich st x with heq | hge
    · rw [heq]; exact ih st
    · right
      exact Nat.le_trans hge (foldl_size_mono step hmono t (step st x))

/-- A solver round that reports progress strictly grows the state size. -/
theorem one_iteration_progress_size (e : ExerciseData) (S r_c : ℚ) (st : SolveSt)
    (h : (one_iteration e S r_c st).progress_made = true) :
    state_size st + 1 ≤ state_size (one_iteration e S r_c st) := by
  unfold one_iteration spread_pass parity_pass at h ⊢
  rcases foldl_size_cases spread_step spread_step_size spread_step_size_mono
      e.spreads
      (e.strikes.foldl (parity_step S r_c) { st with progress_made := false })
    with heq2 | hge2
  · rw [heq2] at h ⊢
    rcases foldl_size_cases (parity_step S r_c) (parity_step_size S r_c)
        (parity_step_size_mono S r_c) e.strikes { st with progress_made := false }
      with heq1 | hge1
    · rw [heq1] at h
      exact Bool.noConfusion h
    · exact hge1
  · have hm := foldl_size_mono (parity_step S r_c) (parity_step_size_mono S r_c)
      e.strikes { st with progress_made := false }
    exact Nat.le_trans (Nat.add_le_add_right hm 1) hge2

/-- Fold preservation where the step hypothesis is only needed on members. -/
theorem foldl_preserve_mem {γ : Type} (P : SolveSt → Prop)
    (step : SolveSt → γ → SolveSt) :
    ∀ (L : List γ), (∀ st, ∀ x ∈ L, P st → P (step st x)) →
      ∀ st, P st → P (L.foldl step st) := by
  intro L
  induction L with
  | nil => intro _ st h; exact h
  | cons x t ih =>
    intro hstep st h
    rw [List.foldl_cons]
    exact ih (fun st' y hy h' => hstep st' y (List.mem_cons_of_mem x hy) h') _
      (hstep st x (List.mem_cons_self x t) h)

/-- The parity phase keeps all known strikes among the puzzle's strikes. -/
theorem parity_fold_keys_sub (e : ExerciseData) (S r_c : ℚ) (st : SolveSt)
    (h : keys_sub e st) :
    keys_sub e (e.strikes.foldl (parity_step S r_c) st) := by
  refine foldl_preserve_mem (keys_sub e) (parity_step S r_c) e.strikes ?_ st h
  intro st' K hK hst'
  unfold parity_step
  split_ifs
  · refine ⟨hst'.1, fun k hk => ?_⟩
    rcases (dmem_dinsert _ _ _ _).mp hk with rfl | hk'
    · exact hK
    · exact hst'.2 k hk'
  · refine ⟨fun k hk => ?_, hst'.2⟩
    rcases (dmem_dinsert _ _ _ _).mp hk with rfl | hk'
    · exact hK
    · exact hst'.1 k hk'
  · exact hst'

/-- The spread phase keeps all known strikes among the puzzle's strikes,
provided every disclosed spread joins two of the puzzle's strikes. -/
theorem spread_fold_keys_sub (e : ExerciseData) (st : SolveSt)
    (hsp : ∀ p ∈ e.spreads, p.1.1 ∈ e.strikes ∧ p.1.2.1 ∈ e.strikes)
    (h : keys_sub e st) :
    keys_sub e (e.spreads.foldl spread_step st) := by
  refine foldl_preserve_mem (keys_sub e) spread_step e.spreads ?_ st h
  intro st' p hp hst'
  obtain ⟨hk1, hk2⟩ := hsp p hp
  rcases p with ⟨⟨k1, k2, side⟩, val⟩
  cases side <;> rcases val with _ | v
  · exact hst'
  · simp only [spread_step]
    split_ifs
    · refine ⟨fun k hk => ?_, hst'.2⟩
      rcases (dmem_dinsert _ _ _ _).mp hk with rfl | hk'
      · exact hk2
      · exact hst'.1 k hk'
    · refine ⟨fun k hk => ?_, hst'.2⟩
      rcases (dmem_dinsert _ _ _ _).mp hk with rfl | hk'
      · exact hk1
      · exact hst'.1 k hk'
    · exact hst'
  · exact hst'
  · simp only [spread_step]
    split_ifs
    · refine ⟨hst'.1, fun k hk => ?_⟩
      rcases (dmem_dinsert _ _ _ _).mp hk with rfl | hk'
      · exact hk2
      · exact hst'.2 k hk'
    · refine ⟨hst'.1, fun k hk => ?_⟩
      rcases (dmem_dinsert _ _ _ _).mp hk with rfl | hk'
      · exact hk1
      · exact hst'.2 k hk'
    · exact hst'

/-- One solver round keeps all known strikes among the puzzle's strikes. -/
theorem one_iteration_keys_sub (e : ExerciseData) (S r_c : ℚ) (st : SolveSt)
    (hsp : ∀ p ∈ e.spreads, p.1.1 ∈ e.strikes ∧ p.1.2.1 ∈ e.strikes)
    (h : keys_sub e st) :
    keys_sub e (one_iteration e S r_c st) := by
  unfold one_iteration spread_pass parity_pass
  exact spread_fold_keys_sub e _ hsp (parity_fold_keys_sub e S r_c _ h)

/-- The bounded loop keeps all known strikes among the puzzle's strikes. -/
theorem solve_loop_keys_sub (e : ExerciseData) (S r_c : ℚ)
    (hsp : ∀ p ∈ e.spreads, p.1.1 ∈ e.strikes ∧ p.1.2.1 ∈ e.strikes) :
    ∀ (fuel : Nat) (st : SolveSt), keys_sub e st →
      keys_sub e (solve_loop e S r_c fuel st) := by
  intro fuel
  induction fuel with
  | zero => intro st h; exact h
  | succ f ih =>
    intro st h
    rw [solve_loop_succ]
    split_ifs
    · exact ih _ (one_iteration_keys_sub e S r_c st hsp h)
    · exact one_iteration_keys_sub e S r_c st hsp h

/-- The seed state's known strikes lie among the puzzle's strikes, provided
every explicit-price key names one of the puzzle's strikes. -/
theorem seed_keys_sub (e : ExerciseData)
    (hexp : ∀ p ∈ e.explicit_prices, p.1.1 ∈ e.strikes) :
    keys_sub e (seed_state e) := by
  unfold seed_state
  refine foldl_preserve_mem (keys_sub e) seed_step e.explicit_prices ?_ _ ?_
  · intro st p hp hst
    have hK := hexp p hp
    rcases p with ⟨⟨K, side⟩, val⟩
    cases side <;> rcases val with _ | v
    · exact hst
    · refine ⟨fun k hk => ?_, hst.2⟩
      rcases (dmem_dinsert _ _ _ _).mp hk with rfl | hk'
      · exact hK
      · exact hst.1 k hk'
    · exact hst
    · refine ⟨hst.1, fun k hk => ?_⟩
      rcases (dmem_dinsert _ _ _ _).mp hk with rfl | hk'
      · exact hK
      · exact hst.2 k hk'
  · exact ⟨fun k hk => by simp [dmem, dfind] at hk,
      fun k hk => by simp [dmem, dfind] at hk⟩

/-- Under the key invariant, the state size is at most two entries per
distinct strike. -/
theorem state_size_le (e : ExerciseData) (st : SolveSt) (h : keys_sub e st) :
    state_size st ≤ 2 * e.strikes.dedup.length := by
  have hc : (dkeys st.known_calls).toFinset ⊆ e.strikes.toFinset := by
    intro k hk
    exact List.mem_toFinset.mpr (h.1 k ((dmem_iff _ _).mpr (List.mem_toFinset.mp hk)))
  have hp : (dkeys st.known_puts).toFinset ⊆ e.strikes.toFinset := by
    intro k hk
    exact List.mem_toFinset.mpr (h.2 k ((dmem_iff _ _).mpr (List.mem_toFinset.mp hk)))
  have h1 := Finset.card_le_card hc
  have h2 := Finset.card_le_card hp
  have h3 : e.strikes.toFinset.card = e.strikes.dedup.length :=
    List.card_toFinset e.strikes
  unfold state_size
  omega

/-- Once a round makes no progress, the loop is frozen at that state. -/
theorem solve_loop_fix (e : ExerciseData) (S r_c : ℚ) (st : SolveSt)
    (h : (one_iteration e S r_c st).progress_made = false) :
    ∀ n, solve_loop e S r_c n (one_iteration e S r_c st) =
      one_iteration e S r_c st := by
  have hnp := one_iteration_no_progress e S r_c st h
  have hmk : ({ one_iteration e S r_c st with progress_made := false } : SolveSt)
      = { st with progress_made := false } := by
    show (⟨(one_iteration e S r_c st).known_calls,
      (one_iteration e S r_c st).known_puts, false⟩ : SolveSt)
      = ⟨st.known_calls, st.known_puts, false⟩
    rw [hnp.1, hnp.2]
  have hone : one_iteration e S r_c (one_iteration e S r_c st) =
      one_iteration e S r_c st := by
    show spread_pass e (parity_pass e S r_c
      { one_iteration e S r_c st with progress_made := false }) = _
    rw [hmk]
    rfl
  intro n
  cases n with
  | zero => rfl
  | succ m =>
    rw [solve_loop_succ, hone, if_neg (by rw [h]; exact Bool.false_ne_true)]

/-- The bounded loop either reaches a frozen state or its fuel is fully
converted into state-size growth. -/
theorem solve_loop_fix_or_grow (e : ExerciseData) (S r_c : ℚ)
    (hsp : ∀ p ∈ e.spreads, p.1.1 ∈ e.strikes ∧ p.1.2.1 ∈ e.strikes) :
    ∀ (fuel : Nat) (st : SolveSt), keys_sub e st →
      (∀ n, solve_loop e S r_c n (solve_loop e S r_c fuel st)
        = solve_loop e S r_c fuel st) ∨
      state_size st + fuel ≤ state_size (solve_loop e S r_c fuel st) := by
  intro fuel
  induction fuel with
  | zero =>
    intro st _
    right
    show state_size st + 0 ≤ state_size st
    omega
  | succ f ih =>
    intro st hst
    rw [solve_loop_succ]
    by_cases hp : (one_iteration e S r_c st).progress_made = true
    · rw [if_pos hp]
      rcases ih (one_iteration e S r_c st)
          (one_iteration_keys_sub e S r_c st hsp hst) with hfix | hge
      · exact Or.inl hfix
      · right
        have h1 := one_iteration_progress_size e S r_c st hp
        omega
    · rw [if_neg hp]
      left
      have hflag : (one_iteration e S r_c st).progress_made = false := by
        revert hp
        cases (one_iteration e S r_c st).progress_made <;> simp
      exact solve_loop_fix e S r_c st hflag

/-- C8: the propagation fixpoint is idempotent — running the bounded solver
loop again on the state that `verify_exercise_solvable`'s propagation
produced leaves `known_calls` and `known_puts` unchanged, for every puzzle
whose explicit-price keys and spread endpoints name its own strikes and which
has at most 24 distinct strikes (so the 50-round budget exceeds the largest
possible number of derivations); in particular the derived state is a
deterministic function of the puzzle and the parameters. -/
theorem C8_fixpoint_idempotent (e : ExerciseData) (S r_c : ℚ)
    (hexp : ∀ p ∈ e.explicit_prices, p.1.1 ∈ e.strikes)
    (hsp : ∀ p ∈ e.spreads, p.1.1 ∈ e.strikes ∧ p.1.2.1 ∈ e.strikes)
    (hsz : e.strikes.dedup.length ≤ 24) :
    (solve_loop e S r_c 50 (solve_state e S r_c)).known_calls
      = (solve_state e S r_c).known_calls ∧
    (solve_loop e S r_c 50 (solve_state e S r_c)).known_puts
      = (solve_state e S r_c).known_puts := by
  rcases solve_loop_fix_or_grow e S r_c hsp 50 (seed_state e)
      (seed_keys_sub e hexp) with hfix | hge
  · have h50 := hfix 50
    exact ⟨congrArg SolveSt.known_calls h50, congrArg SolveSt.known_puts h50⟩
  · exfalso
    have hks : keys_sub e (solve_loop e S r_c 50 (seed_state e)) :=
      solve_loop_keys_sub e S r_c hsp 50 (seed_state e) (seed_keys_sub e hexp)
    have hbound := state_size_le e _ hks
    omega

/-- Witness for C8 at a concrete two-strike puzzle. -/
theorem C8_fixpoint_idempotent_witness :
    ((∀ p ∈ exA.explicit_prices, p.1.1 ∈ exA.strikes) ∧
     (∀ p ∈ exA.spreads, p.1.1 ∈ exA.strikes ∧ p.1.2.1 ∈ exA.strikes) ∧
     exA.strikes.dedup.length ≤ 24) ∧
    (solve_loop exA 0 0 50 (solve_state exA 0 0)).known_calls
      = (solve_state exA 0 0).known_calls :=
  ⟨⟨by decide, by decide, by decide⟩,
    (C8_fixpoint_idempotent exA 0 0 (by decide) (by decide) (by decide)).1⟩
